import Mathlib

/-!
Verification of the content structuring and knowledge graph construction
pipeline of the spool-content-service repository.

The development shallowly embeds the Python source:

* `app/pdf_processing/extractor.py` : line classification patterns, the
  structure recognizer, concept segmentation and classification;
* `app/embeddings/generator.py` : the batched embedding generator with
  per-item fallback;
* `app/neo4j_client/graph_manager.py` : graph materialization with MERGE
  upsert semantics, prerequisite chains and shortest paths;
* `app/pinecone_client/vector_store.py` : the vector indexer;
* `app/routers/processing.py` : the processing job state machine.

Strings are modelled as lists of characters (`Str`).  Python float vectors
carry no arithmetic in the verified paths, so vector components are
modelled by `Int` (only the literal `0.0` appears in the source, modelled
by `0`).  External collaborators (the embedding provider, the graph store
engine, the vector store engine) are modelled by oracles or by explicit
store states, following the interface contracts of the specification.
-/

namespace Spool

/-- Strings are modelled as lists of characters so that the character level
pattern rules of the extractor can be stated by recursion. -/
abbrev Str := List Char

/-- Whitespace recognized by the Python `str.strip` / regex `\s` class
(ASCII range, which is the range exercised by the extractor patterns). -/
def isPySpace (c : Char) : Bool :=
  c = ' ' || c = '\t' || c = '\n' || c = '\r' ||
  c = Char.ofNat 11 || c = Char.ofNat 12

/-- Model of Python `str.strip()`: remove leading and trailing whitespace. -/
def stripPy (l : Str) : Str :=
  ((l.dropWhile isPySpace).reverse.dropWhile isPySpace).reverse

/-- Model of Python `str.lower()` on the ASCII range. -/
def lowerPy (l : Str) : Str := l.map Char.toLower

/-- Substring containment, the model of the Python `in` operator on
strings: `containsSub needle hay` holds when `needle` occurs contiguously
inside `hay`. -/
def containsSub (needle : Str) : Str → Bool
  | [] => needle.isEmpty
  | c :: rest => needle.isPrefixOf (c :: rest) || containsSub needle rest

/-- Model of Python `text.split(sep)` for a two character separator,
specialised to the separators used by the extractor.  Occurrences are
consumed left to right without overlap. -/
def splitTwo (a b : Char) : Str → List Str
  | [] => [[]]
  | x :: y :: rest =>
      if x = a ∧ y = b then [] :: splitTwo a b rest
      else (splitTwo a b (y :: rest)).modifyHead (x :: ·)
  | [x] => [[x]]

/-- Paragraph separator split, `text.split("\n\n")` in `_extract_concepts`. -/
def splitBlank (l : Str) : List Str := splitTwo '\n' '\n' l

/-- Sentence split, `para.split(". ")` in `_extract_concepts`. -/
def splitSentence (l : Str) : List Str := splitTwo '.' ' ' l

/-- Model of `"\n".join(lines)`. -/
def joinNL (ls : List Str) : Str := List.intercalate ['\n'] ls

/-- Digit run to number, the model of Python `int` applied to the digit
group captured by a pattern. -/
def natOfDigits (ds : Str) : Nat :=
  ds.foldl (fun n c => 10 * n + (c.toNat - 48)) 0

/-! ### Pattern rules of the structure recognizer

Each regular expression of `PDFExtractor` is modelled by a character level
parser.  All patterns are anchored (`re.match` with a trailing `dollar`),
applied to stripped lines, and compiled with `re.IGNORECASE`.  Character
classes of the patterns (`\d`, `\s`, `[:\s]`) are pairwise disjoint from
the characters that follow them in every pattern, so greedy matching
without backtracking is faithful everywhere except at the final capture
group: there `X+ (.+)` can give back a single class character when the
remainder would otherwise be empty, which `tailCapture` reproduces. -/

/-- Characters of the class `[:\s]` used between a heading number and its
title. -/
def isColonSpace (c : Char) : Bool := c = ':' || isPySpace c

/-- Letters admitted by `[A-Z]` under `re.IGNORECASE` (ASCII). -/
def isAsciiLetter (c : Char) : Bool :=
  ('A' ≤ c && c ≤ 'Z') || ('a' ≤ c && c ≤ 'z')

/-- Case-insensitive literal prefix: consumes letters of `w` (given in
lowercase) from the head of the line and returns the remainder. -/
def dropWordCI (w : Str) (l : Str) : Option Str :=
  match w, l with
  | [], rest => some rest
  | _ :: _, [] => none
  | c :: ws, x :: xs => if x.toLower = c then dropWordCI ws xs else none

/-- Model of a trailing `C+ (.+)` suffix of a pattern, where `C` is a
character class disjoint from the line end: the class run must be
nonempty; the capture is the remainder, or the last class character when
the remainder is empty and the run is at least two characters long
(greedy matching giving one character back). -/
def tailCapture (cls : Char → Bool) (l : Str) : Option Str :=
  let run := l.takeWhile cls
  let rest := l.dropWhile cls
  if run.isEmpty then none
  else if rest.isEmpty then
    if 2 ≤ run.length then some (run.drop (run.length - 1)) else none
  else some rest

/-- Shared shape of the first four chapter patterns, for instance
`Chapter\s+(\d+)[:\s]+(.+)` with `w` the case-insensitive literal. -/
def chapterWordPat (w : Str) (l : Str) : Option (Nat × Str) :=
  match dropWordCI w l with
  | none => none
  | some r1 =>
      let ws := r1.takeWhile isPySpace
      let r2 := r1.dropWhile isPySpace
      if ws.isEmpty then none
      else
        let ds := r2.takeWhile Char.isDigit
        let r3 := r2.dropWhile Char.isDigit
        if ds.isEmpty then none
        else (tailCapture isColonSpace r3).map fun g => (natOfDigits ds, stripPy g)

/-- The bare numbered chapter pattern `(\d+)\.\s+(.+)`. -/
def chapterNumberedPat (l : Str) : Option (Nat × Str) :=
  let ds := l.takeWhile Char.isDigit
  let r := l.dropWhile Char.isDigit
  if ds.isEmpty then none
  else
    match r with
    | '.' :: r2 => (tailCapture isPySpace r2).map fun g => (natOfDigits ds, stripPy g)
    | _ => none

/-- Model of `PDFExtractor._match_chapter`: the five chapter patterns are
tried in order and the first match wins.  The second source pattern
(`CHAPTER ...`) is identical to the first under `re.IGNORECASE` and is
kept as a duplicate alternative. -/
def matchChapter (l : Str) : Option (Nat × Str) :=
  chapterWordPat "chapter".data l <|> chapterWordPat "chapter".data l <|>
  chapterWordPat "unit".data l <|> chapterWordPat "module".data l <|>
  chapterNumberedPat l

/-- The numeric section pattern `(\d+\.\d+)\s+(.+)`; the first group is
the dotted number. -/
def sectionNumericPat (l : Str) : Option (Str × Str) :=
  let d1 := l.takeWhile Char.isDigit
  let r1 := l.dropWhile Char.isDigit
  if d1.isEmpty then none
  else
    match r1 with
    | '.' :: r2 =>
        let d2 := r2.takeWhile Char.isDigit
        let r3 := r2.dropWhile Char.isDigit
        if d2.isEmpty then none
        else (tailCapture isPySpace r3).map fun g => (d1 ++ '.' :: d2, stripPy g)
    | _ => none

/-- The pattern `Section\s+(\d+\.\d+)[:\s]+(.+)`. -/
def sectionWordPat (l : Str) : Option (Str × Str) :=
  match dropWordCI "section".data l with
  | none => none
  | some r1 =>
      let ws := r1.takeWhile isPySpace
      let r2 := r1.dropWhile isPySpace
      if ws.isEmpty then none
      else
        let d1 := r2.takeWhile Char.isDigit
        let r3 := r2.dropWhile Char.isDigit
        if d1.isEmpty then none
        else
          match r3 with
          | '.' :: r4 =>
              let d2 := r4.takeWhile Char.isDigit
              let r5 := r4.dropWhile Char.isDigit
              if d2.isEmpty then none
              else (tailCapture isColonSpace r5).map fun g => (d1 ++ '.' :: d2, stripPy g)
          | _ => none

/-- The single letter list item pattern `[A-Z]\.\s+(.+)` under
`re.IGNORECASE`; it has one capture group, so `_match_section` returns
the constant label `A` for it. -/
def sectionLetterPat (l : Str) : Option (Str × Str) :=
  match l with
  | c :: '.' :: r =>
      if isAsciiLetter c then (tailCapture isPySpace r).map fun g => (['A'], stripPy g)
      else none
  | _ => none

/-- Model of `PDFExtractor._match_section`: the three section patterns in
source order, first match wins. -/
def matchSection (l : Str) : Option (Str × Str) :=
  sectionNumericPat l <|> sectionWordPat l <|> sectionLetterPat l

/-! ### Content classification and concept segmentation -/

/-- The content type enumeration of `app/models/content.py`. -/
inductive ContentType where
  | explanation
  | example
  | formula
  | exercise
  | definition
deriving DecidableEq, Repr

/-- String values of the content type enumeration. -/
def ContentType.value : ContentType → Str
  | .explanation => "explanation".data
  | .example => "example".data
  | .formula => "formula".data
  | .exercise => "exercise".data
  | .definition => "definition".data

/-- Keyword groups of `PDFExtractor._classify_content`, in the priority
order of the source. -/
def exampleKeywords : List Str :=
  ["example:".data, "for instance".data, "e.g.".data, "such as".data]

/-- Formula keywords of `_classify_content`. -/
def formulaKeywords : List Str := ["=".data, "formula".data, "equation".data]

/-- Exercise keywords of `_classify_content`. -/
def exerciseKeywords : List Str :=
  ["exercise:".data, "problem:".data, "question:".data]

/-- Definition keywords of `_classify_content`. -/
def definitionKeywords : List Str :=
  ["definition:".data, "is defined as".data, "means that".data]

/-- Model of `PDFExtractor._classify_content`: the text is lowered once
and the keyword groups are tested in a fixed priority order. -/
def classifyContent (text : Str) : ContentType :=
  let tl := lowerPy text
  if exampleKeywords.any (fun k => containsSub k tl) then .example
  else if formulaKeywords.any (fun k => containsSub k tl) then .formula
  else if exerciseKeywords.any (fun k => containsSub k tl) then .exercise
  else if definitionKeywords.any (fun k => containsSub k tl) then .definition
  else .explanation

/-! ### Data model

The entity structures of `app/models/content.py`.  The random
`uuid.uuid4()` identity defaults are outside a deterministic embedding;
identities are ordinary string fields here, and values produced by the
extractor model carry the empty identity (no extractor claim reads it).
Timestamp fields are represented as optional opaque strings and free-form
metadata maps are omitted, as no verified code path reads them. -/

/-- A concept, the smallest content unit.  Vector components are `Int`
models of the source floats. -/
structure Concept where
  id : Str
  name : Str
  content : Str
  ctype : ContentType
  embedding : Option (List Int) := none
deriving DecidableEq, Repr

/-- A section of a chapter. -/
structure Section where
  id : Str
  title : Str
  number : Option Str := none
  concepts : List Concept := []
deriving DecidableEq, Repr

/-- A chapter of a book. -/
structure Chapter where
  id : Str
  number : Nat
  title : Str
  sections : List Section := []
deriving DecidableEq, Repr

/-- A book. -/
structure Book where
  id : Str
  title : Str
  subject : Str
  gradeLevel : Option Str := none
  chapters : List Chapter := []
  processedAt : Option Str := none
deriving DecidableEq, Repr

/-- All concepts of a book flattened in document order, the traversal
shared by `_create_concept_relationships`, `process_book` and
`store_book_vectors`. -/
def flatConcepts (b : Book) : List Concept :=
  b.chapters.flatMap fun ch => ch.sections.flatMap fun s => s.concepts

/-- Identities of the flattened concepts in document order. -/
def flatConceptIds (b : Book) : List Str := (flatConcepts b).map (·.id)

/-! ### Concept segmentation (`PDFExtractor._extract_concepts`) -/

/-- Model of `_extract_concepts`: split the accumulated text into
paragraphs at blank line boundaries, strip and drop empty paragraphs,
discard paragraphs shorter than 50 characters, and build one concept per
surviving paragraph with the first sentence (at most 100 characters) as
its name. -/
def extractConcepts (text : Str) : List Concept :=
  let paragraphs := ((splitBlank text).map stripPy).filter (fun p => !p.isEmpty)
  (paragraphs.filter (fun p => 50 ≤ p.length)).map fun para =>
    { id := []
      name := ((splitSentence para).headD para).take 100
      content := para
      ctype := classifyContent para }

/-! ### Structure recognizer (`PDFExtractor._structure_content`)

The recognizer consumes the stripped nonempty lines of the page texts in
order.  The mutable cursors of the source are modelled by an explicit
state: finished chapters, the chapter in progress (number, title and its
finished sections), the section in progress and the accumulation buffer.
The buffer is cleared only when it is flushed into a current section,
exactly as in the source. -/

/-- Recognizer state: finished chapters, current chapter cursor (number,
title, finished sections), current section cursor, accumulation buffer. -/
structure RecState where
  done : List Chapter
  curCh : Option (Nat × Str × List Section)
  curSec : Option Section
  acc : List Str
deriving Repr

/-- Flush of the accumulation buffer: only when a current section exists
and the buffer is nonempty are concepts extracted and the buffer cleared
(`if current_section and accumulated_text` in the source). -/
def flushAcc (st : RecState) : RecState :=
  match st.curSec with
  | some s =>
      if st.acc.isEmpty then st
      else { st with
              curSec := some { s with concepts := s.concepts ++ extractConcepts (joinNL st.acc) }
              acc := [] }
  | none => st

/-- Close of the current chapter cursor into a finished chapter,
absorbing the current section. -/
def closeChapter : Option (Nat × Str × List Section) → Option Section → List Chapter
  | none, _ => []
  | some (n, t, secs), cs => [{ id := [], number := n, title := t, sections := secs ++ cs.toList }]

/-- One line of `_structure_content`: strip, skip blank lines, try the
chapter patterns, then the section patterns (which apply only under a
current chapter), otherwise accumulate the line as body text. -/
def stepLine (st : RecState) (raw : Str) : RecState :=
  if (stripPy raw).isEmpty then st
  else
    match matchChapter (stripPy raw) with
    | some (n, t) =>
        { done := (flushAcc st).done ++ closeChapter (flushAcc st).curCh (flushAcc st).curSec
          curCh := some (n, t, [])
          curSec := none
          acc := (flushAcc st).acc }
    | none =>
        match matchSection (stripPy raw), st.curCh with
        | some (num, t), some (cn, ct, secs) =>
            { done := (flushAcc st).done
              curCh := some (cn, ct, secs ++ (flushAcc st).curSec.toList)
              curSec := some { id := [], title := t, number := some num, concepts := [] }
              acc := (flushAcc st).acc }
        | _, _ => { st with acc := st.acc ++ [stripPy raw] }

/-- Model of `PDFExtractor._infer_subject`. -/
def inferSubject (title : Str) : Str :=
  let tl := lowerPy title
  if ["math".data, "algebra".data, "geometry".data, "calculus".data].any
      (fun k => containsSub k tl) then "Mathematics".data
  else if ["physics".data, "chemistry".data, "biology".data, "science".data].any
      (fun k => containsSub k tl) then "Science".data
  else if ["history".data, "geography".data, "social".data].any
      (fun k => containsSub k tl) then "Social Studies".data
  else if ["english".data, "literature".data, "language".data].any
      (fun k => containsSub k tl) then "English".data
  else "General".data

/-- Final step of `_structure_content`: flush the remaining buffer and
close the current chapter into the book. -/
def finalizeBook (title : Str) (st : RecState) : Book :=
  { id := []
    title := title
    subject := inferSubject title
    chapters := (flushAcc st).done ++ closeChapter (flushAcc st).curCh (flushAcc st).curSec }

/-- Model of `PDFExtractor._structure_content` on the concatenated lines
of the extracted pages: fold the recognizer over every line, flush the
final buffer, and close the current chapter. -/
def structureContent (lines : List Str) (title : Str) : Book :=
  finalizeBook title (lines.foldl stepLine { done := [], curCh := none, curSec := none, acc := [] })

/-! ### Embedding batcher (`app/embeddings/generator.py`)

The external embedding provider and the tokenizer are oracles.  One
provider call on a whole batch may fail (`none`); one call on a single
text may fail per attempt, indexed so that the bounded retry of
`generate_embedding` is explicit.  Vector components are `Int` models of
the source floats; the only vector literal of the source is the zero
vector fallback. -/

/-- Generator configuration drawn from `settings`: the vector dimension,
the batch size and the token budget (8191 in the source). -/
structure EmbedConfig where
  dimension : Nat
  batchSize : Nat
  maxTokens : Nat
deriving Repr

/-- Tokenizer oracle modelling `tiktoken` `encode` and `decode`. -/
structure Tokenizer where
  encode : Str → List Nat
  decode : List Nat → Str

/-- Embedding provider oracle: `batchCall` is one `embeddings.create`
call on a batch, `singleCall k` is the k-th attempt of one call on a
single text.  A `none` result models a raised exception. -/
structure Provider where
  batchCall : List Str → Option (List (List Int))
  singleCall : Nat → Str → Option (List Int)

/-- Model of `EmbeddingGenerator._truncate_text`: encode, keep at most
`maxTokens` tokens, decode only when over budget. -/
def truncateText (cfg : EmbedConfig) (tk : Tokenizer) (t : Str) : Str :=
  if (tk.encode t).length ≤ cfg.maxTokens then t
  else tk.decode ((tk.encode t).take cfg.maxTokens)

/-- Model of `EmbeddingGenerator.generate_embedding`: truncate, then call
the provider under the tenacity retry policy `stop_after_attempt(3)`; the
result is `none` when all three attempts fail (the source re-raises). -/
def generateEmbedding (cfg : EmbedConfig) (tk : Tokenizer) (pr : Provider) (t : Str) :
    Option (List Int) :=
  pr.singleCall 0 (truncateText cfg tk t) <|> pr.singleCall 1 (truncateText cfg tk t) <|>
  pr.singleCall 2 (truncateText cfg tk t)

/-- The zero vector fallback `[0.0] * self.dimension`. -/
def zeroVector (cfg : EmbedConfig) : List Int := List.replicate cfg.dimension 0

/-- Slicing of the input into batches, `texts[i:i + self.batch_size]` for
`i = 0, bs, 2*bs, ...`.  For a positive batch size this is the source
slicing exactly; the recursion is total for every batch size. -/
def chunkList (bs : Nat) : List α → List (List α)
  | [] => []
  | x :: xs => (x :: xs).take bs :: chunkList bs (xs.drop (bs - 1))
termination_by l => l.length
decreasing_by
  simp only [List.length_cons, List.length_drop]
  omega

/-- One batch of `generate_embeddings_batch`: truncate every text, submit
the whole batch, and on failure fall back to one `generate_embedding`
call per text with the zero vector as last resort. -/
def processBatch (cfg : EmbedConfig) (tk : Tokenizer) (pr : Provider) (b : List Str) :
    List (List Int) :=
  match pr.batchCall (b.map (truncateText cfg tk)) with
  | some vs => vs
  | none =>
      (b.map (truncateText cfg tk)).map fun t =>
        (generateEmbedding cfg tk pr t).getD (zeroVector cfg)

/-- Model of `EmbeddingGenerator.generate_embeddings_batch`: the batches
are processed in order and their results concatenated. -/
def generateEmbeddingsBatch (cfg : EmbedConfig) (tk : Tokenizer) (pr : Provider)
    (texts : List Str) : List (List Int) :=
  ((chunkList cfg.batchSize texts).map (processBatch cfg tk pr)).flatten

/-- The batch that contains input index `i`, namely the source slice
`texts[bs*(i/bs) : bs*(i/bs) + bs]`. -/
def batchAt (bs : Nat) (texts : List Str) (i : Nat) : List Str :=
  (texts.drop (bs * (i / bs))).take bs

/-- The vector that position `i` of the result must carry: the batch
containing text `i` is truncated and submitted; on success the vector at
the position of the text inside its batch is used, on failure the
per-item fallback on that text. -/
def expectedAt (cfg : EmbedConfig) (tk : Tokenizer) (pr : Provider)
    (texts : List Str) (i : Nat) : List Int :=
  match pr.batchCall ((batchAt cfg.batchSize texts i).map (truncateText cfg tk)) with
  | some vs => vs.getD (i % cfg.batchSize) []
  | none =>
      (generateEmbedding cfg tk pr
        (((batchAt cfg.batchSize texts i).map (truncateText cfg tk)).getD
          (i % cfg.batchSize) [])).getD (zeroVector cfg)

/-- A well behaved provider returns one vector per submitted text on a
successful batch call, the same-length interface contract of the
embedding provider. -/
def ProviderSameLength (pr : Provider) : Prop :=
  ∀ b vs, pr.batchCall b = some vs → vs.length = b.length

/-! ### Graph store (`app/neo4j_client/graph_manager.py`)

The external graph store is modelled by an explicit state of typed nodes
and typed directed edges.  The three Cypher query shapes issued by
`GraphManager` become three primitive operations with `MERGE` upsert
semantics: an unconditional node upsert, a node-plus-edge upsert guarded
by a `MATCH` on the parent, and an edge upsert guarded by a `MATCH` on
both endpoints (a failed `MATCH` makes the whole query a no-op).  Index
creation (`CREATE INDEX IF NOT EXISTS`) touches no node or edge and is
not represented. -/

/-- Property values stored on nodes. -/
inductive PVal where
  | s (v : Str)
  | n (v : Nat)
  | null
deriving DecidableEq, Repr

/-- Property maps written by the `SET` clauses. -/
abbrev Props := List (Str × PVal)

/-- A node key: label and identity.  `MERGE (x:L {id: $id})` matches on
exactly this pair. -/
abbrev NKey := Str × Str

/-- A stored node. -/
structure GNode where
  label : Str
  id : Str
  props : Props
deriving DecidableEq, Repr

/-- A stored directed edge. -/
structure GEdge where
  typ : Str
  src : NKey
  tgt : NKey
deriving DecidableEq, Repr

/-- The graph store state. -/
structure GStore where
  nodes : List GNode
  edges : List GEdge
deriving DecidableEq, Repr

/-- The empty graph store. -/
def emptyStore : GStore := { nodes := [], edges := [] }

/-- The key of a stored node. -/
def GNode.key (nd : GNode) : NKey := (nd.label, nd.id)

/-- Node existence by key, the semantics of a `MATCH` on label and id. -/
def hasNode (st : GStore) (k : NKey) : Bool := st.nodes.any fun nd => nd.key = k

/-- Upsert of a node: `MERGE` followed by `SET` replaces the properties
of the matched node, or appends a fresh node. -/
def upsertNode (st : GStore) (k : NKey) (p : Props) : GStore :=
  if hasNode st k then
    { st with nodes := st.nodes.map fun nd => if nd.key = k then { nd with props := p } else nd }
  else { st with nodes := st.nodes ++ [{ label := k.1, id := k.2, props := p }] }

/-- Upsert of an edge: `MERGE` creates the relationship only when it is
absent. -/
def upsertEdge (st : GStore) (t : Str) (a b : NKey) : GStore :=
  if ({ typ := t, src := a, tgt := b } : GEdge) ∈ st.edges then st
  else { st with edges := st.edges ++ [{ typ := t, src := a, tgt := b }] }

/-- The three Cypher query shapes of `GraphManager` as primitive
operations. -/
inductive GOp where
  | mergeNode (k : NKey) (p : Props)
  | mergeChildEdge (parent : NKey) (child : NKey) (p : Props) (typ : Str)
  | mergeEdgeMM (a b : NKey) (typ : Str)
deriving DecidableEq, Repr

/-- Semantics of one query: `mergeNode` is `_create_book_node`;
`mergeChildEdge` is the chapter, section and concept queries (`MATCH`
parent, `MERGE` child node, `SET`, `MERGE` edge), a no-op when the parent
is absent; `mergeEdgeMM` is `_create_prerequisite_relation` (`MATCH` both
endpoints, `MERGE` edge), a no-op when either endpoint is absent. -/
def applyOp (st : GStore) : GOp → GStore
  | .mergeNode k p => upsertNode st k p
  | .mergeChildEdge parent child p t =>
      if hasNode st parent then upsertEdge (upsertNode st child p) t parent child
      else st
  | .mergeEdgeMM a b t =>
      if hasNode st a && hasNode st b then upsertEdge st t a b else st

/-- Sequential execution of queries. -/
def runOps (st : GStore) (ops : List GOp) : GStore := ops.foldl applyOp st

/-- Node labels and edge types used by `GraphManager`. -/
def bookLabel : Str := "Book".data

/-- Chapter node label. -/
def chapterLabel : Str := "Chapter".data

/-- Section node label. -/
def sectionLabel : Str := "Section".data

/-- Concept node label. -/
def conceptLabel : Str := "Concept".data

/-- Edge type of book to chapter containment. -/
def hasChapterT : Str := "HAS_CHAPTER".data

/-- Edge type of chapter to section containment. -/
def hasSectionT : Str := "HAS_SECTION".data

/-- Edge type of section to concept containment. -/
def hasConceptT : Str := "HAS_CONCEPT".data

/-- Edge type of the prerequisite chain. -/
def prerequisiteT : Str := "PREREQUISITE".data

/-- Optional string property. -/
def optPV : Option Str → PVal
  | some v => .s v
  | none => .null

/-- Properties written on the book node by `_create_book_node`. -/
def bookProps (b : Book) : Props :=
  [("title".data, .s b.title), ("subject".data, .s b.subject),
   ("grade_level".data, optPV b.gradeLevel), ("processed_at".data, optPV b.processedAt)]

/-- Properties written on a chapter node. -/
def chapterProps (ch : Chapter) : Props :=
  [("number".data, .n ch.number), ("title".data, .s ch.title)]

/-- Properties written on a section node. -/
def sectionProps (s : Section) : Props :=
  [("title".data, .s s.title), ("number".data, optPV s.number)]

/-- Properties written on a concept node; the content excerpt is capped
at 1000 characters (`concept.content[:1000]`). -/
def conceptProps (co : Concept) : Props :=
  [("name".data, .s co.name), ("type".data, .s co.ctype.value),
   ("content".data, .s (co.content.take 1000))]

/-- The query issued for one concept under its section. -/
def conceptOp (sid : Str) (co : Concept) : GOp :=
  .mergeChildEdge (sectionLabel, sid) (conceptLabel, co.id) (conceptProps co) hasConceptT

/-- The queries issued for one section under its chapter. -/
def sectionOps (chId : Str) (s : Section) : List GOp :=
  .mergeChildEdge (chapterLabel, chId) (sectionLabel, s.id) (sectionProps s) hasSectionT ::
  s.concepts.map (conceptOp s.id)

/-- The queries issued by `_create_chapter_structure` for one chapter. -/
def chapterOps (bid : Str) (ch : Chapter) : List GOp :=
  .mergeChildEdge (bookLabel, bid) (chapterLabel, ch.id) (chapterProps ch) hasChapterT ::
  ch.sections.flatMap (sectionOps ch.id)

/-- Adjacent pairs of a list, the iteration
`for i in range(len(concepts) - 1)`. -/
def adjacentPairs (ids : List Str) : List (Str × Str) := ids.zip ids.tail

/-- The queries issued by `_create_concept_relationships`: one
prerequisite edge per adjacent pair of the document order flattening. -/
def prereqOps (ids : List Str) : List GOp :=
  (adjacentPairs ids).map fun p => .mergeEdgeMM (conceptLabel, p.1) (conceptLabel, p.2) prerequisiteT

/-- The full query sequence of `create_book_graph`. -/
def bookOps (b : Book) : List GOp :=
  .mergeNode (bookLabel, b.id) (bookProps b) ::
  (b.chapters.flatMap (chapterOps b.id) ++ prereqOps (flatConceptIds b))

/-- Model of `GraphManager.create_book_graph`: run every query of the
book against the store. -/
def createBookGraph (st : GStore) (b : Book) : GStore := runOps st (bookOps b)

/-- The prerequisite pairs present in a store, as (from id, to id). -/
def prereqPairsOf (st : GStore) : List (Str × Str) :=
  st.edges.filterMap fun e => if e.typ = prerequisiteT then some (e.src.2, e.tgt.2) else none

/-! #### Normal form of a materialized book

The explicit node and edge lists a fresh run produces, used by the
prerequisite chain and idempotence proofs. -/

/-- The concept node created for `co`. -/
def conceptNode (co : Concept) : GNode :=
  { label := conceptLabel, id := co.id, props := conceptProps co }

/-- Nodes created for a section subtree. -/
def sectionNodes (s : Section) : List GNode :=
  { label := sectionLabel, id := s.id, props := sectionProps s } :: s.concepts.map conceptNode

/-- Nodes created for a chapter subtree. -/
def chapterNodes (ch : Chapter) : List GNode :=
  { label := chapterLabel, id := ch.id, props := chapterProps ch } ::
  ch.sections.flatMap sectionNodes

/-- All nodes created for a book. -/
def structNodes (b : Book) : List GNode :=
  { label := bookLabel, id := b.id, props := bookProps b } ::
  b.chapters.flatMap chapterNodes

/-- Structural edges created for a section subtree. -/
def sectionEdges (chId : Str) (s : Section) : List GEdge :=
  { typ := hasSectionT, src := (chapterLabel, chId), tgt := (sectionLabel, s.id) } ::
  s.concepts.map fun co =>
    { typ := hasConceptT, src := (sectionLabel, s.id), tgt := (conceptLabel, co.id) }

/-- Structural edges created for a chapter subtree. -/
def chapterEdges (bid : Str) (ch : Chapter) : List GEdge :=
  { typ := hasChapterT, src := (bookLabel, bid), tgt := (chapterLabel, ch.id) } ::
  ch.sections.flatMap (sectionEdges ch.id)

/-- All structural edges created for a book. -/
def structEdges (b : Book) : List GEdge := b.chapters.flatMap (chapterEdges b.id)

/-- The prerequisite edges created for a book. -/
def prereqEdgesOf (b : Book) : List GEdge :=
  (adjacentPairs (flatConceptIds b)).map fun p =>
    { typ := prerequisiteT, src := (conceptLabel, p.1), tgt := (conceptLabel, p.2) }

/-- The node keys present in a store. -/
def nodeKeys (st : GStore) : List NKey := st.nodes.map GNode.key

/-- Every edge of the store connects nodes of the store; this holds in
every store reachable from the empty store because the `MATCH` guards of
the queries require the endpoints. -/
def edgesClosed (st : GStore) : Prop :=
  ∀ e ∈ st.edges, hasNode st e.src = true ∧ hasNode st e.tgt = true

/-- Well-formed book identities: the node keys the materialization
writes are pairwise distinct, and the flattened concept identities are
pairwise distinct (both satisfied by the `uuid4` identity defaults of the
data model). -/
def WfIds (b : Book) : Prop :=
  ((structNodes b).map GNode.key).Nodup ∧ (flatConceptIds b).Nodup

/-! ### Shortest learning path (`GraphManager._find_shortest_path`)

The Cypher pattern is
`shortestPath((from:Concept {id})-[:PREREQUISITE*]->(to:Concept {id}))`,
a directed variable length pattern of one or more prerequisite hops.  The
graph store engine is modelled by a layered search: level `k` holds every
prerequisite chain of `k` edges ending at the target, levels are explored
in increasing order, and the first level containing a chain starting at
the source yields the returned path.  The fuel `st.edges.length` covers
every minimal path, since a minimal path repeats no node. -/

/-- Whether the store holds a prerequisite edge between two keys. -/
def isPrereqEdge (st : GStore) (a b : NKey) : Bool :=
  ({ typ := prerequisiteT, src := a, tgt := b } : GEdge) ∈ st.edges

/-- Direct prerequisite predecessors of a key. -/
def predsOf (st : GStore) (y : NKey) : List NKey :=
  st.edges.filterMap fun e => if e.typ = prerequisiteT ∧ e.tgt = y then some e.src else none

/-- Whether consecutive elements of a key sequence are all prerequisite
edges of the store. -/
def chainOk (st : GStore) : List NKey → Bool
  | [] => true
  | [_] => true
  | x :: y :: r => isPrereqEdge st x y && chainOk st (y :: r)

/-- A directed prerequisite-only path of at least one hop from `a` to
`b`, matching the variable length pattern `[:PREREQUISITE*]` (one or
more relationships). -/
def isPrereqPath (st : GStore) (a b : NKey) (p : List NKey) : Bool :=
  decide (2 ≤ p.length) && p.head? = some a && p.getLast? = some b && chainOk st p

/-- Every prerequisite chain of `k` edges that ends at `b`, each chain
built backwards by prepending a direct predecessor of its head. -/
def pathsTo (st : GStore) (b : NKey) : Nat → List (List NKey)
  | 0 => [[b]]
  | k + 1 =>
      (pathsTo st b k).flatMap fun p =>
        match p with
        | [] => []
        | y :: _ => (predsOf st y).map fun x => x :: p

/-- The chain of `k` edges from `a` to `b` found at level `k`, if any. -/
def searchLevel (st : GStore) (a b : NKey) (k : Nat) : Option (List NKey) :=
  (pathsTo st b k).find? fun p => p.head? = some a

/-- Increasing level search starting at level `k` with the given fuel. -/
def searchFrom (st : GStore) (a b : NKey) (k : Nat) : Nat → Option (List NKey)
  | 0 => none
  | fuel + 1 =>
      match searchLevel st a b k with
      | some p => some p
      | none => searchFrom st a b (k + 1) fuel

/-- The node sequence of a shortest prerequisite path of at least one
hop, the store engine semantics of the Cypher `shortestPath` call. -/
def findPathNodes (st : GStore) (a b : NKey) : Option (List NKey) :=
  searchFrom st a b 1 st.edges.length

/-- The learning path record of `app/models/content.py`; path nodes are
carried as keys (the source stores them as `GraphNode` values labelled
`Concept`). -/
structure LearningPath where
  fromConcept : Str
  toConcept : Str
  path : List NKey
  totalConcepts : Nat
  estimatedTime : Nat
deriving DecidableEq, Repr

/-- Model of `GraphManager._find_shortest_path`: match both concept
nodes, run the shortest path pattern, and package the node sequence with
`total_concepts = len(path_nodes)` and
`estimated_time = len(path_nodes) * 15`. -/
def findLearningPath (st : GStore) (a b : Str) : Option LearningPath :=
  if hasNode st (conceptLabel, a) && hasNode st (conceptLabel, b) then
    match findPathNodes st (conceptLabel, a) (conceptLabel, b) with
    | some p =>
        some { fromConcept := a, toConcept := b, path := p,
               totalConcepts := p.length, estimatedTime := p.length * 15 }
    | none => none
  else none

/-! ### Vector indexer (`app/pinecone_client/vector_store.py`)

The vector store is a list of entries keyed by identity; upsert replaces
the entry of an existing identity and appends otherwise.  The metadata
payload carries an indexing timestamp (`datetime.utcnow()`) and is not
represented; no verified property reads it.  Whether the provider call
for a batch raises is an oracle over the starting offset of the batch. -/

/-- One vector entry. -/
structure VecEntry where
  id : Str
  values : List Int
deriving DecidableEq, Repr

/-- The vector index state. -/
structure PIndex where
  entries : List VecEntry
deriving DecidableEq, Repr

/-- The truthiness test `if concept.embedding:` of the source: a Python
list is truthy only when it is nonempty, so both an absent and an empty
embedding are skipped. -/
def embTruthy (co : Concept) : Bool :=
  match co.embedding with
  | some (_ :: _) => true
  | _ => false

/-- The vectors collected from a book by `store_book_vectors`, one entry
per concept whose embedding is truthy, in document order. -/
def collectVectors (b : Book) : List VecEntry :=
  b.chapters.flatMap fun ch => ch.sections.flatMap fun s =>
    s.concepts.filterMap fun co =>
      if embTruthy co then some { id := co.id, values := co.embedding.getD [] } else none

/-- Upsert of one entry by identity. -/
def upsertEntry (ix : PIndex) (e : VecEntry) : PIndex :=
  if ix.entries.any fun x => x.id = e.id then
    { entries := ix.entries.map fun x => if x.id = e.id then e else x }
  else { entries := ix.entries ++ [e] }

/-- Upsert of one batch. -/
def upsertBatch (ix : PIndex) (batch : List VecEntry) : PIndex :=
  batch.foldl upsertEntry ix

/-- The fixed upsert batch size of `VectorStore`. -/
def vectorBatchSize : Nat := 100

/-- One iteration of the upsert loop of `store_book_vectors`: the state
carries the index, the stored count and the starting offset of the next
batch; a batch whose provider call fails is dropped, the count untouched,
and processing continues. -/
def storeFoldStep (ok : Nat → Bool) (acc : PIndex × Nat × Nat)
    (batch : List VecEntry) : PIndex × Nat × Nat :=
  if ok acc.2.2 then
    (upsertBatch acc.1 batch, acc.2.1 + batch.length, acc.2.2 + vectorBatchSize)
  else (acc.1, acc.2.1, acc.2.2 + vectorBatchSize)

/-- Model of `VectorStore.store_book_vectors`: collect the vectors of
every concept with a truthy embedding, upsert them in batches of 100, and
count only the batches whose provider call succeeds (`ok` takes the
starting offset of the batch). -/
def storeBookVectors (ok : Nat → Bool) (ix : PIndex) (b : Book) : PIndex × Nat :=
  (((chunkList vectorBatchSize (collectVectors b)).foldl (storeFoldStep ok) (ix, 0, 0)).1,
   ((chunkList vectorBatchSize (collectVectors b)).foldl (storeFoldStep ok) (ix, 0, 0)).2.1)

/-- The concept count the claim derives from the specification wording
for the vector indexer: one stored vector per concept with a non-null
embedding.  This definition follows the words of the specification, to be
compared with the source behaviour `collectVectors`. -/
def specNonNullEmbeddingCount (b : Book) : Nat :=
  ((flatConcepts b).filter fun co => co.embedding ≠ none).length

/-! ### Processing job pipeline (`app/routers/processing.py`)

The four pipeline stages are oracles that either complete or raise with a
message.  `process_pdf_task` is modelled as the sequence of job states it
writes: the job enters `processing`, progress advances to 25/50/75/100 as
stages complete, and the `except` clause records `failed` together with
the exception message.  Wall-clock timestamps are modelled as set flags. -/

/-- Job status enumeration of `app/models/content.py`. -/
inductive JStatus where
  | pending
  | processing
  | completed
  | failed
deriving DecidableEq, Repr

/-- The processing job fields the pipeline mutates. -/
structure Job where
  status : JStatus
  progress : Nat
  errorMessage : Option Str
  hasStartedAt : Bool
  hasCompletedAt : Bool
deriving DecidableEq, Repr

/-- Outcome of one pipeline stage: completion, or an exception carrying
the message `str(e)`. -/
inductive StageOutcome where
  | ok
  | err (msg : Str)
deriving DecidableEq, Repr

/-- Outcomes of the four stages of one run: extraction, embedding
generation, graph write, vector write. -/
structure StageOutcomes where
  extract : StageOutcome
  embed : StageOutcome
  graph : StageOutcome
  vector : StageOutcome
deriving DecidableEq, Repr

/-- The `except` clause of `process_pdf_task`: status `failed`, the
exception message recorded, the completion timestamp set. -/
def failJob (j : Job) (m : Str) : Job :=
  { j with status := .failed, errorMessage := some m, hasCompletedAt := true }

/-- Model of `process_pdf_task` as the sequence of job states after each
stage boundary.  Progress is written only after a stage completes, so a
failure leaves the progress of the last completed boundary in place. -/
def pipelineTrace (oc : StageOutcomes) (j0 : Job) : List Job :=
  let j1 := { j0 with status := .processing, hasStartedAt := true }
  match oc.extract with
  | .err m => [j1, failJob j1 m]
  | .ok =>
      let j2 := { j1 with progress := 25 }
      match oc.embed with
      | .err m => [j1, j2, failJob j2 m]
      | .ok =>
          let j3 := { j2 with progress := 50 }
          match oc.graph with
          | .err m => [j1, j2, j3, failJob j3 m]
          | .ok =>
              let j4 := { j3 with progress := 75 }
              match oc.vector with
              | .err m => [j1, j2, j3, j4, failJob j4 m]
              | .ok =>
                  [j1, j2, j3, j4,
                   { j4 with progress := 100, status := .completed, hasCompletedAt := true }]

/-- Terminal job statuses. -/
def terminalStatus (s : JStatus) : Bool := s = .completed || s = .failed

/-- No reversion to `processing`: whenever a state of the trace is
terminal, every later state is not `processing`. -/
def noRevert : List Job → Bool
  | [] => true
  | j :: rest =>
      (!terminalStatus j.status || rest.all fun k => k.status ≠ .processing) && noRevert rest

/-! ### Concrete inputs for witnesses and counterexamples -/

/-- A body line long enough to survive the 50 character paragraph filter
and matching no heading pattern and no classification keyword. -/
def preSectionLine : Str := "The study of sets begins with simple membership ideas".data

/-- Lines of a document whose single body line precedes the first
recognized section of its chapter. -/
def c3Lines : List Str :=
  ["Chapter 1: Algebra".data, preSectionLine, "1.1 Sets".data]

/-- A paragraph containing both an example marker and a formula marker. -/
def c4Text : Str := "Example: the identity 2 + 2 = 4 shows how sums work".data

/-- A concept with an explicit identity and embedding for the graph and
vector examples. -/
def mkConcept (cid name : Str) (emb : Option (List Int)) : Concept :=
  { id := cid, name := name, content := name, ctype := .explanation, embedding := emb }

/-- A one chapter, two section, three concept book for the graph claims. -/
def exGraphBook : Book :=
  { id := "b1".data, title := "T".data, subject := "General".data,
    chapters :=
      [{ id := "ch1".data, number := 1, title := "C1".data,
         sections :=
           [{ id := "se1".data, title := "S1".data, number := some "1.1".data,
              concepts := [mkConcept "c1".data "n1".data none,
                           mkConcept "c2".data "n2".data none] },
            { id := "se2".data, title := "S2".data, number := some "1.2".data,
              concepts := [mkConcept "c3".data "n3".data none] }] }] }

/-- A book of three concepts: one with a populated embedding, one with an
absent embedding, and one with a present but empty embedding. -/
def exVectorBook : Book :=
  { id := "b2".data, title := "T".data, subject := "General".data,
    chapters :=
      [{ id := "ch1".data, number := 1, title := "C1".data,
         sections :=
           [{ id := "se1".data, title := "S1".data, number := some "1.1".data,
              concepts := [mkConcept "v1".data "n1".data (some [3, 4]),
                           mkConcept "v2".data "n2".data none,
                           mkConcept "v3".data "n3".data (some [])] }] }] }

/-- A freshly uploaded job. -/
def exJob : Job :=
  { status := .pending, progress := 0, errorMessage := none,
    hasStartedAt := false, hasCompletedAt := false }

/-- Stage outcomes of a run whose graph write raises with an empty
exception message. -/
def exOutcomesEmptyMsg : StageOutcomes :=
  { extract := .ok, embed := .ok, graph := .err [], vector := .ok }

/-- Stage outcomes of a run whose graph write raises with a readable
message. -/
def exOutcomesBoom : StageOutcomes :=
  { extract := .ok, embed := .ok, graph := .err "boom".data, vector := .ok }

/-- A tokenizer oracle whose encoding always fits the token budget. -/
def exTokenizer : Tokenizer := { encode := fun _ => [], decode := fun _ => [] }

/-- A small embedding configuration. -/
def exEmbedConfig : EmbedConfig := { dimension := 2, batchSize := 2, maxTokens := 8191 }

/-- A provider whose batch call always succeeds with one vector per
text. -/
def exProviderOk : Provider :=
  { batchCall := fun b => some (b.map fun t => [Int.ofNat t.length]),
    singleCall := fun _ _ => none }

/-- A provider whose batch calls fail and whose single calls always
fail, forcing the zero vector fallback. -/
def exProviderDown : Provider :=
  { batchCall := fun _ => none, singleCall := fun _ _ => none }

/-- Three short input texts. -/
def exTexts : List Str := ["aa".data, "bbb".data, "c".data]

/-- A raw line the recognizer treats as body text: nonempty after
stripping and matching neither a chapter nor a section pattern. -/
def PlainBody (raw : Str) : Prop :=
  stripPy raw ≠ [] ∧ matchChapter (stripPy raw) = none ∧ matchSection (stripPy raw) = none

instance (raw : Str) : Decidable (PlainBody raw) := by
  unfold PlainBody; infer_instance

/-- The concepts of a book whose embedding is truthy, in document order:
exactly the concepts the vector indexer stores. -/
def truthyConcepts (b : Book) : List Concept := (flatConcepts b).filter embTruthy

/-!
## Theorems

Helper lemmas first, then for each claim its theorem together with its
witness or counterexample.
-/

/-! ### Helper lemmas on strings and patterns -/

theorem list_isEmpty_false {l : List α} (h : l ≠ []) : l.isEmpty = false := by
  cases l with
  | nil => exact absurd rfl h
  | cons x xs => rfl

/-- An ASCII letter is not a digit. -/
theorem isAsciiLetter_not_digit {c : Char} (h : isAsciiLetter c = true) :
    c.isDigit = false := by
  simp only [isAsciiLetter, Bool.or_eq_true, Bool.and_eq_true, decide_eq_true_eq] at h
  simp only [Char.isDigit, Bool.and_eq_false_iff, decide_eq_false_iff_not]
  right
  intro hle
  have hn : c.val.toNat ≤ 57 := hle
  rcases h with ⟨h1, _⟩ | ⟨h1, _⟩
  · have h1n : (65 : Nat) ≤ c.val.toNat := h1
    omega
  · have h1n : (97 : Nat) ≤ c.val.toNat := h1
    omega

/-- The trailing capture succeeds whenever the line continues with a
class character followed by at least one further character. -/
theorem tailCapture_isSome {cls : Char → Bool} {c : Char} {t : Str}
    (hc : cls c = true) (ht : t ≠ []) : (tailCapture cls (c :: t)).isSome = true := by
  unfold tailCapture
  simp only [List.takeWhile_cons, List.dropWhile_cons, hc, if_true, List.isEmpty_cons,
    Bool.false_eq_true, if_false]
  by_cases hrest : (t.dropWhile cls).isEmpty
  · have htw : t.takeWhile cls = t := by
      have hsplit := List.takeWhile_append_dropWhile (p := cls) (l := t)
      rwa [List.isEmpty_iff.mp hrest, List.append_nil] at hsplit
    have hlen : 1 ≤ t.length := by
      cases t with
      | nil => exact absurd rfl ht
      | cons a b => simp
    rw [if_pos hrest, if_pos]
    · rfl
    · simp only [List.length_cons, htw]
      omega
  · rw [if_neg hrest]
    rfl

/-- The numeric section pattern rejects a line starting with a letter. -/
theorem sectionNumericPat_letter_none {c : Char} (hc : isAsciiLetter c = true) (r : Str) :
    sectionNumericPat (c :: r) = none := by
  unfold sectionNumericPat
  simp [List.takeWhile_cons, isAsciiLetter_not_digit hc]

/-- The `Section N.M` pattern rejects a line whose second character is a
period. -/
theorem sectionWordPat_letterDot_none (c : Char) (r : Str) :
    sectionWordPat (c :: '.' :: r) = none := by
  unfold sectionWordPat dropWordCI
  by_cases h : c.toLower = 's'
  · simp only [h, if_true]
    rfl
  · simp only [h, if_false]

/-- C10: every line recognized by the single letter list item pattern
(a letter, a period, a title, case-insensitively) produces the constant
section number label `A`, regardless of which letter appears. -/
theorem matchSection_letter_constant_label (c : Char) (t : Str)
    (hc : isAsciiLetter c = true) (ht : t ≠ []) :
    (matchSection (c :: '.' :: ' ' :: t)).map Prod.fst = some ['A'] := by
  have h1 : sectionNumericPat (c :: '.' :: ' ' :: t) = none := sectionNumericPat_letter_none hc _
  have h2 : sectionWordPat (c :: '.' :: ' ' :: t) = none := sectionWordPat_letterDot_none c _
  have h3 : (tailCapture isPySpace (' ' :: t)).isSome = true :=
    tailCapture_isSome (by decide) ht
  obtain ⟨g, hg⟩ := Option.isSome_iff_exists.mp h3
  unfold matchSection sectionLetterPat
  simp [h1, h2, hc, hg]

/-- C10 witness: the letter `B` yields the label `A`. -/
theorem matchSection_letter_constant_label_witness :
    isAsciiLetter 'B' = true ∧ ("Plot basics".data ≠ ([] : Str)) ∧
    (matchSection ('B' :: '.' :: ' ' :: "Plot basics".data)).map Prod.fst = some ['A'] :=
  ⟨by decide, by decide, matchSection_letter_constant_label 'B' _ (by decide) (by decide)⟩

/-- C4: a paragraph containing both an example marker and a formula
marker is classified `example`, because the example markers are tested
first in `_classify_content`. -/
theorem classifyContent_example_priority (text : Str)
    (hex : ∃ k ∈ exampleKeywords, containsSub k (lowerPy text) = true)
    (_hfo : ∃ k ∈ formulaKeywords, containsSub k (lowerPy text) = true) :
    classifyContent text = .example := by
  obtain ⟨k, hk, hc⟩ := hex
  have h : (exampleKeywords.any fun k => containsSub k (lowerPy text)) = true :=
    List.any_eq_true.mpr ⟨k, hk, hc⟩
  simp only [classifyContent]
  rw [if_pos h]

/-- C4 witness: a paragraph with both `Example:` and `=` is classified
`example`. -/
theorem classifyContent_example_priority_witness :
    (∃ k ∈ exampleKeywords, containsSub k (lowerPy c4Text) = true) ∧
    (∃ k ∈ formulaKeywords, containsSub k (lowerPy c4Text) = true) ∧
    classifyContent c4Text = .example :=
  ⟨⟨"example:".data, by decide, by decide⟩, ⟨"=".data, by decide, by decide⟩,
    classifyContent_example_priority c4Text ⟨"example:".data, by decide, by decide⟩
      ⟨"=".data, by decide, by decide⟩⟩

/-! ### Structure recognizer lemmas -/

/-- A body line only appends its stripped text to the accumulation
buffer. -/
theorem stepLine_plain (st : RecState) (raw : Str) (h : PlainBody raw) :
    stepLine st raw = { st with acc := st.acc ++ [stripPy raw] } := by
  obtain ⟨h1, h2, h3⟩ := h
  unfold stepLine
  rw [list_isEmpty_false h1, h2, h3]
  rfl

/-- Folding the recognizer over body lines only extends the accumulation
buffer. -/
theorem foldl_stepLine_plain (ls : List Str) (st : RecState)
    (h : ∀ l ∈ ls, PlainBody l) :
    ls.foldl stepLine st = { st with acc := st.acc ++ ls.map stripPy } := by
  induction ls generalizing st with
  | nil => simp
  | cons x xs ih =>
      rw [List.foldl_cons, stepLine_plain st x (h x (List.mem_cons_self x xs)),
        ih _ (fun l hl => h l (List.mem_cons_of_mem x hl))]
      simp

/-- A chapter heading closes the current chapter and starts a fresh one;
with no current section the buffer is neither flushed nor cleared. -/
theorem stepLine_chapter_noCur (doneL : List Chapter)
    (curC : Option (Nat × Str × List Section)) (accL : List Str) (chLine : Str)
    (n : Nat) (ct : Str) (hstr : stripPy chLine ≠ [])
    (hm : matchChapter (stripPy chLine) = some (n, ct)) :
    stepLine { done := doneL, curCh := curC, curSec := none, acc := accL } chLine =
      { done := doneL ++ closeChapter curC none, curCh := some (n, ct, []),
        curSec := none, acc := accL } := by
  unfold stepLine
  rw [list_isEmpty_false hstr, hm]
  rfl

/-- A section heading under a current chapter starts a fresh section;
with no current section the buffer is neither flushed nor cleared. -/
theorem stepLine_section_noCur (doneL : List Chapter) (cn : Nat) (ctt : Str)
    (secs : List Section) (accL : List Str) (secLine : Str) (sn stt : Str)
    (hstr : stripPy secLine ≠ []) (hnoCh : matchChapter (stripPy secLine) = none)
    (hm : matchSection (stripPy secLine) = some (sn, stt)) :
    stepLine { done := doneL, curCh := some (cn, ctt, secs), curSec := none, acc := accL }
        secLine =
      { done := doneL, curCh := some (cn, ctt, secs),
        curSec := some { id := [], title := stt, number := some sn, concepts := [] },
        acc := accL } := by
  unfold stepLine
  rw [list_isEmpty_false hstr, hnoCh, hm]
  simp [flushAcc]

/-- C3 counterexample: in a document whose single body line precedes the
first recognized section, that line is not dropped; it is the content of
the one concept of the resulting book. -/
theorem preSection_line_retained :
    (flatConcepts (structureContent c3Lines "Algebra Basics".data)).map (·.content) =
      [preSectionLine] := by decide

/-- C3 amended: body lines that precede the first recognized section are
retained in the accumulation buffer rather than dropped, and are flushed
into the first section recognized afterwards: the section receives the
concepts extracted from the pre-section lines together with the lines
following the heading. -/
theorem preSection_text_flows_into_next_section
    (title chLine secLine : Str) (body tl : List Str) (n : Nat) (ct sn stt : Str)
    (hch : matchChapter (stripPy chLine) = some (n, ct))
    (hbody : ∀ l ∈ body, PlainBody l)
    (hsecStrip : stripPy secLine ≠ [])
    (hsecCh : matchChapter (stripPy secLine) = none)
    (hsec : matchSection (stripPy secLine) = some (sn, stt))
    (htail : ∀ l ∈ tl, PlainBody l) :
    structureContent (chLine :: (body ++ secLine :: tl)) title =
      { id := [], title := title, subject := inferSubject title,
        chapters :=
          [{ id := [], number := n, title := ct,
             sections :=
               [{ id := [], title := stt, number := some sn,
                  concepts := extractConcepts (joinNL ((body ++ tl).map stripPy)) }] }] } := by
  have hchNe : stripPy chLine ≠ [] := by
    intro he
    rw [he] at hch
    rw [(by decide : matchChapter ([] : Str) = none)] at hch
    exact Option.noConfusion hch
  unfold structureContent
  rw [List.foldl_cons,
    stepLine_chapter_noCur [] none [] chLine n ct hchNe hch,
    List.foldl_append,
    foldl_stepLine_plain body _ hbody,
    List.foldl_cons]
  rw [show closeChapter none none = [] from rfl]
  rw [stepLine_section_noCur ([] ++ []) n ct [] ([] ++ body.map stripPy) secLine sn stt
    hsecStrip hsecCh hsec,
    foldl_stepLine_plain tl _ htail]
  unfold finalizeBook
  by_cases hacc : body.map stripPy ++ tl.map stripPy = []
  · simp only [flushAcc, List.nil_append, hacc, List.isEmpty_nil, if_true]
    have hj : extractConcepts (joinNL ([] : List Str)) = [] := by decide
    simp [closeChapter, List.map_append, hacc, hj]
  · simp only [flushAcc, List.nil_append,
      list_isEmpty_false hacc, Bool.false_eq_true, if_false]
    simp [closeChapter, List.map_append]

/-- C3 witness: on the three line document of the counterexample, the
pre-section line is flushed into the first section recognized after
it. -/
theorem preSection_text_flows_witness :
    structureContent c3Lines "Algebra Basics".data =
      { id := [], title := "Algebra Basics".data,
        subject := inferSubject "Algebra Basics".data,
        chapters :=
          [{ id := [], number := 1, title := "Algebra".data,
             sections :=
               [{ id := [], title := "Sets".data, number := some "1.1".data,
                  concepts :=
                    extractConcepts (joinNL (([preSectionLine] ++ []).map stripPy)) }] }] } :=
  preSection_text_flows_into_next_section "Algebra Basics".data
    "Chapter 1: Algebra".data "1.1 Sets".data [preSectionLine] [] 1
    "Algebra".data "1.1".data "Sets".data (by decide) (by decide) (by decide)
    (by decide) (by decide) (by decide)

/-! ### Embedding batcher lemmas -/

/-- Unfolding of the batch slicing on a nonempty input. -/
theorem chunkList_cons (bs : Nat) (x : α) (xs : List α) :
    chunkList bs (x :: xs) = (x :: xs).take bs :: chunkList bs (xs.drop (bs - 1)) := by
  rw [chunkList]

/-- A batch result has one vector per text of the batch when the provider
keeps its same-length contract. -/
theorem processBatch_length (cfg : EmbedConfig) (tk : Tokenizer) (pr : Provider)
    (hpr : ProviderSameLength pr) (b : List Str) :
    (processBatch cfg tk pr b).length = b.length := by
  unfold processBatch
  cases h : pr.batchCall (b.map (truncateText cfg tk)) with
  | some vs => simpa using hpr _ _ h
  | none => simp

/-- Core batching fact: flattening the per-batch results of a
length-preserving batch function reads, at position `i`, the element
`i % bs` of the image of the batch containing position `i`. -/
theorem flatten_chunk_getElem (bs : Nat) (hbs : 0 < bs) (f : List β → List γ)
    (hf : ∀ b, (f b).length = b.length) (l : List β) :
    ∀ i, i < l.length →
      (((chunkList bs l).map f).flatten)[i]? =
        (f ((l.drop (bs * (i / bs))).take bs))[i % bs]? := by
  induction l using chunkList.induct bs with
  | case1 =>
      intro i hi
      simp at hi
  | case2 x xs ih =>
      intro i hi
      rw [chunkList_cons, List.map_cons, List.flatten_cons]
      have hlen : (f ((x :: xs).take bs)).length = min bs (x :: xs).length := by
        rw [hf, List.length_take]
      by_cases hib : i < bs
      · have hleft : i < (f ((x :: xs).take bs)).length := by
          rw [hlen]
          exact lt_min hib hi
        rw [List.getElem?_append_left hleft, Nat.div_eq_of_lt hib, Nat.mod_eq_of_lt hib,
          Nat.mul_zero, List.drop_zero]
      · push_neg at hib
        obtain ⟨j, rfl⟩ : ∃ j, i = j + bs := ⟨i - bs, by omega⟩
        have hflen : (f ((x :: xs).take bs)).length = bs := by
          rw [hlen]
          exact min_eq_left (by simp at hi ⊢; omega)
        rw [List.getElem?_append_right (by omega : (f ((x :: xs).take bs)).length ≤ j + bs)]
        have hdrop : xs.drop (bs - 1) = (x :: xs).drop bs := by
          cases bs with
          | zero => omega
          | succ k => simp
        have hj : j < (xs.drop (bs - 1)).length := by
          rw [hdrop, List.length_drop]
          simp at hi ⊢
          omega
        rw [hflen, (by omega : j + bs - bs = j), ih j hj,
          (Nat.add_mod_right j bs : (j + bs) % bs = j % bs), hdrop, List.drop_drop,
          (Nat.add_div_right j hbs : (j + bs) / bs = j / bs + 1), Nat.mul_succ,
          Nat.add_comm (bs * (j / bs)) bs]

/-- The batch slices reassemble to the input. -/
theorem chunkList_flatten (bs : Nat) (hbs : 0 < bs) (l : List α) :
    (chunkList bs l).flatten = l := by
  induction l using chunkList.induct bs with
  | case1 =>
      rw [chunkList]
      rfl
  | case2 x xs ih =>
      have hdrop : xs.drop (bs - 1) = (x :: xs).drop bs := by
        cases bs with
        | zero => omega
        | succ k => simp
      rw [chunkList_cons, List.flatten_cons, ih, hdrop, List.take_append_drop]

/-- The result of the batcher reads, at every input position, the vector
prescribed by the batch containing that position. -/
theorem generateEmbeddingsBatch_getElem (cfg : EmbedConfig) (tk : Tokenizer)
    (pr : Provider) (hbs : 0 < cfg.batchSize) (hpr : ProviderSameLength pr)
    (texts : List Str) (i : Nat) (hi : i < texts.length) :
    (generateEmbeddingsBatch cfg tk pr texts)[i]? = some (expectedAt cfg tk pr texts i) := by
  have hmod : i % cfg.batchSize < cfg.batchSize := Nat.mod_lt _ hbs
  have hdm : cfg.batchSize * (i / cfg.batchSize) + i % cfg.batchSize = i :=
    Nat.div_add_mod i cfg.batchSize
  have hidx : i % cfg.batchSize < (batchAt cfg.batchSize texts i).length := by
    unfold batchAt
    rw [List.length_take, List.length_drop]
    omega
  unfold generateEmbeddingsBatch
  rw [flatten_chunk_getElem cfg.batchSize hbs _ (processBatch_length cfg tk pr hpr) texts i hi]
  show (processBatch cfg tk pr (batchAt cfg.batchSize texts i))[i % cfg.batchSize]? = _
  unfold processBatch expectedAt
  cases h : pr.batchCall ((batchAt cfg.batchSize texts i).map (truncateText cfg tk)) with
  | some vs =>
      have hv : i % cfg.batchSize < vs.length := by
        rw [hpr _ _ h, List.length_map]
        exact hidx
      rw [List.getElem?_eq_getElem hv]
      exact congrArg some (List.getD_eq_getElem vs [] hv).symm
  | none =>
      have htb : i % cfg.batchSize <
          ((batchAt cfg.batchSize texts i).map (truncateText cfg tk)).length := by
        rw [List.length_map]
        exact hidx
      have hout : i % cfg.batchSize <
          (((batchAt cfg.batchSize texts i).map (truncateText cfg tk)).map fun t =>
            (generateEmbedding cfg tk pr t).getD (zeroVector cfg)).length := by
        rw [List.length_map]
        exact htb
      rw [List.getElem?_eq_getElem hout, List.getElem_map]
      exact congrArg some
        (congrArg (fun t => (generateEmbedding cfg tk pr t).getD (zeroVector cfg))
          (List.getD_eq_getElem _ [] htb).symm)

/-- C1: the embedding batcher is length preserving and order preserving:
the result has one vector per input text, and the vector at position `i`
is the one prescribed for text `i` by the batch containing it, whichever
batches fail. -/
theorem generateEmbeddingsBatch_length_order (cfg : EmbedConfig) (tk : Tokenizer)
    (pr : Provider) (hbs : 0 < cfg.batchSize) (hpr : ProviderSameLength pr)
    (texts : List Str) :
    (generateEmbeddingsBatch cfg tk pr texts).length = texts.length ∧
    ∀ i, i < texts.length →
      (generateEmbeddingsBatch cfg tk pr texts)[i]? = some (expectedAt cfg tk pr texts i) := by
  constructor
  · unfold generateEmbeddingsBatch
    rw [List.length_flatten, List.map_map]
    have hcong :
        (chunkList cfg.batchSize texts).map (List.length ∘ processBatch cfg tk pr) =
        (chunkList cfg.batchSize texts).map List.length :=
      List.map_eq_map_iff.mpr fun b _ => processBatch_length cfg tk pr hpr b
    rw [hcong, ← List.length_flatten, chunkList_flatten _ hbs]
  · exact fun i hi => generateEmbeddingsBatch_getElem cfg tk pr hbs hpr texts i hi

/-- C1 witness: three texts in batches of two, with a healthy provider. -/
theorem generateEmbeddingsBatch_length_order_witness :
    0 < exEmbedConfig.batchSize ∧ ProviderSameLength exProviderOk ∧
    (generateEmbeddingsBatch exEmbedConfig exTokenizer exProviderOk exTexts).length =
      exTexts.length ∧
    (generateEmbeddingsBatch exEmbedConfig exTokenizer exProviderOk exTexts)[2]? =
      some (expectedAt exEmbedConfig exTokenizer exProviderOk exTexts 2) := by
  have hpr : ProviderSameLength exProviderOk := by
    intro b vs h
    simp only [exProviderOk, Option.some_inj] at h
    rw [← h, List.length_map]
  refine ⟨by decide, hpr, ?_, ?_⟩
  · exact (generateEmbeddingsBatch_length_order exEmbedConfig exTokenizer exProviderOk
      (by decide) hpr exTexts).1
  · exact (generateEmbeddingsBatch_length_order exEmbedConfig exTokenizer exProviderOk
      (by decide) hpr exTexts).2 2 (by decide)

/-- The element of the batch containing position `i` at the position of
text `i` is text `i` itself. -/
theorem batchAt_getD (bs : Nat) (hbs : 0 < bs) (texts : List Str) (i : Nat)
    (hi : i < texts.length) :
    (batchAt bs texts i).getD (i % bs) [] = texts.getD i [] := by
  have hmod : i % bs < bs := Nat.mod_lt _ hbs
  have hdm : bs * (i / bs) + i % bs = i := Nat.div_add_mod i bs
  have hidx : i % bs < (batchAt bs texts i).length := by
    unfold batchAt
    rw [List.length_take, List.length_drop]
    omega
  rw [List.getD_eq_getElem _ [] hidx, List.getD_eq_getElem _ [] hi]
  unfold batchAt
  rw [List.getElem_take, List.getElem_drop]
  congr 1

/-- C2: provider failures never escape the batcher: in a batch whose
whole-batch call fails, each text is retried individually through the
bounded retry of `generate_embedding`, and if all three attempts fail the
vector at that position is the zero vector of the configured dimension. -/
theorem generateEmbeddingsBatch_fallback (cfg : EmbedConfig) (tk : Tokenizer)
    (pr : Provider) (hbs : 0 < cfg.batchSize) (hpr : ProviderSameLength pr)
    (texts : List Str) (i : Nat) (hi : i < texts.length)
    (hfail : pr.batchCall ((batchAt cfg.batchSize texts i).map (truncateText cfg tk)) = none) :
    (generateEmbeddingsBatch cfg tk pr texts)[i]? =
      some ((generateEmbedding cfg tk pr
        (truncateText cfg tk (texts.getD i []))).getD (zeroVector cfg)) ∧
    ((∀ k, k < 3 →
        pr.singleCall k (truncateText cfg tk (truncateText cfg tk (texts.getD i []))) = none) →
      (generateEmbeddingsBatch cfg tk pr texts)[i]? = some (zeroVector cfg)) := by
  have hbase : (generateEmbeddingsBatch cfg tk pr texts)[i]? =
      some ((generateEmbedding cfg tk pr
        (truncateText cfg tk (texts.getD i []))).getD (zeroVector cfg)) := by
    rw [generateEmbeddingsBatch_getElem cfg tk pr hbs hpr texts i hi]
    unfold expectedAt
    rw [hfail]
    have hgd : ((batchAt cfg.batchSize texts i).map (truncateText cfg tk)).getD
        (i % cfg.batchSize) [] = truncateText cfg tk (texts.getD i []) := by
      have hidx : i % cfg.batchSize < (batchAt cfg.batchSize texts i).length := by
        unfold batchAt
        rw [List.length_take, List.length_drop]
        have hmod : i % cfg.batchSize < cfg.batchSize := Nat.mod_lt _ hbs
        have hdm : cfg.batchSize * (i / cfg.batchSize) + i % cfg.batchSize = i :=
          Nat.div_add_mod i cfg.batchSize
        omega
      rw [List.getD_eq_getElem _ [] (by rwa [List.length_map]), List.getElem_map,
        ← List.getD_eq_getElem _ [] hidx, batchAt_getD cfg.batchSize hbs texts i hi]
    rw [hgd]
  refine ⟨hbase, fun hall => ?_⟩
  rw [hbase]
  unfold generateEmbedding
  rw [hall 0 (by omega), hall 1 (by omega), hall 2 (by omega)]
  rfl

/-- C2 witness: a provider whose batch and single calls all fail yields
the zero vector of the configured dimension at every position; shown at
position one of three texts. -/
theorem generateEmbeddingsBatch_fallback_witness :
    (generateEmbeddingsBatch exEmbedConfig exTokenizer exProviderDown exTexts)[1]? =
      some (zeroVector exEmbedConfig) :=
  (generateEmbeddingsBatch_fallback exEmbedConfig exTokenizer exProviderDown
    (by decide) (fun b vs h => by simp [exProviderDown] at h) exTexts 1 (by decide)
    (by rfl)).2 (fun k _ => rfl)

/-! ### Graph store lemmas -/

/-- Node existence is key membership. -/
theorem hasNode_iff_mem (st : GStore) (k : NKey) :
    hasNode st k = true ↔ k ∈ nodeKeys st := by
  unfold hasNode nodeKeys
  rw [List.any_eq_true]
  constructor
  · rintro ⟨nd, hnd, hk⟩
    exact List.mem_map.mpr ⟨nd, hnd, by simpa using hk⟩
  · rintro hk
    obtain ⟨nd, hnd, hk⟩ := List.mem_map.mp hk
    exact ⟨nd, hnd, by simp [hk]⟩

/-- Upserting a node keeps the edges. -/
theorem edges_upsertNode (st : GStore) (k : NKey) (p : Props) :
    (upsertNode st k p).edges = st.edges := by
  unfold upsertNode
  split <;> rfl

/-- Upserting an edge keeps the nodes. -/
theorem nodes_upsertEdge (st : GStore) (t : Str) (a b : NKey) :
    (upsertEdge st t a b).nodes = st.nodes := by
  unfold upsertEdge
  split <;> rfl

/-- The keys after a node upsert: unchanged when present, appended when
fresh. -/
theorem nodeKeys_upsertNode (st : GStore) (k : NKey) (p : Props) :
    nodeKeys (upsertNode st k p) =
      if hasNode st k then nodeKeys st else nodeKeys st ++ [k] := by
  unfold upsertNode nodeKeys
  split
  · simp only [List.map_map]
    refine List.map_eq_map_iff.mpr fun nd _ => ?_
    show GNode.key (if nd.key = k then { nd with props := p } else nd) = GNode.key nd
    by_cases h : nd.key = k
    · rw [if_pos h]
      rfl
    · rw [if_neg h]
  · simp [GNode.key]

/-- A fresh node upsert appends the node. -/
theorem upsertNode_fresh (st : GStore) (k : NKey) (p : Props)
    (h : hasNode st k = false) :
    upsertNode st k p = { st with nodes := st.nodes ++ [{ label := k.1, id := k.2, props := p }] } := by
  unfold upsertNode
  rw [h]
  rfl

/-- A fresh edge upsert appends the edge. -/
theorem upsertEdge_fresh (st : GStore) (t : Str) (a b : NKey)
    (h : ({ typ := t, src := a, tgt := b } : GEdge) ∉ st.edges) :
    upsertEdge st t a b = { st with edges := st.edges ++ [{ typ := t, src := a, tgt := b }] } := by
  unfold upsertEdge
  rw [if_neg h]

/-- Sequencing of query lists. -/
theorem runOps_append (st : GStore) (l1 l2 : List GOp) :
    runOps st (l1 ++ l2) = runOps (runOps st l1) l2 := by
  unfold runOps
  rw [List.foldl_append]

/-- Unfolding of one query. -/
theorem runOps_cons (st : GStore) (op : GOp) (ops : List GOp) :
    runOps st (op :: ops) = runOps (applyOp st op) ops := rfl

/-- A store fixed by every query of a list is fixed by the list. -/
theorem runOps_fix (st : GStore) (ops : List GOp)
    (h : ∀ op ∈ ops, applyOp st op = st) : runOps st ops = st := by
  induction ops with
  | nil => rfl
  | cons op rest ih =>
      rw [runOps_cons, h op (List.mem_cons_self op rest)]
      exact ih fun o ho => h o (List.mem_cons_of_mem op ho)

/-- Upserting a node already present with the same properties is the
identity, provided node keys are unambiguous. -/
theorem upsertNode_fix (st : GStore) (k : NKey) (p : Props)
    (hnd : (nodeKeys st).Nodup)
    (hmem : ({ label := k.1, id := k.2, props := p } : GNode) ∈ st.nodes) :
    upsertNode st k p = st := by
  have hkey : ({ label := k.1, id := k.2, props := p } : GNode).key = k := by
    simp [GNode.key]
  have hhas : hasNode st k = true :=
    (hasNode_iff_mem st k).mpr (by exact hkey ▸ List.mem_map_of_mem GNode.key hmem)
  unfold upsertNode
  rw [hhas]
  simp only [if_true]
  have hmap : st.nodes.map (fun nd => if nd.key = k then { nd with props := p } else nd) =
      st.nodes.map id := by
    refine List.map_eq_map_iff.mpr fun nd hnd2 => ?_
    by_cases h : nd.key = k
    · have : nd = { label := k.1, id := k.2, props := p } :=
        List.inj_on_of_nodup_map hnd hnd2 hmem (by rw [h, hkey])
      simp [h, this]
    · simp [h]
  rw [hmap, List.map_id]

/-- Upserting an edge already present is the identity. -/
theorem upsertEdge_fix (st : GStore) (t : Str) (a b : NKey)
    (h : ({ typ := t, src := a, tgt := b } : GEdge) ∈ st.edges) :
    upsertEdge st t a b = st := by
  unfold upsertEdge
  rw [if_pos h]

/-- Keys of a store with appended nodes. -/
theorem nodeKeys_mk_append (A B : List GNode) (E : List GEdge) :
    nodeKeys { nodes := A ++ B, edges := E } =
      nodeKeys { nodes := A, edges := E } ++ B.map GNode.key := by
  unfold nodeKeys
  exact List.map_append GNode.key A B

/-- Node existence ignores the edges. -/
theorem hasNode_mk_edges (A : List GNode) (E E2 : List GEdge) (k : NKey) :
    hasNode { nodes := A, edges := E } k = hasNode { nodes := A, edges := E2 } k := rfl

/-- Appending nodes preserves node existence. -/
theorem hasNode_mk_append_left (A B : List GNode) (E E2 : List GEdge) (k : NKey)
    (h : hasNode { nodes := A, edges := E } k = true) :
    hasNode { nodes := A ++ B, edges := E2 } k = true := by
  rw [hasNode_iff_mem] at h ⊢
  rw [nodeKeys_mk_append]
  exact List.mem_append_left _ h

/-- One fresh child query appends its node and its edge. -/
theorem applyOp_childEdge_fresh (st : GStore) (parent : NKey) (childL childI : Str)
    (p : Props) (t : Str)
    (hpar : hasNode st parent = true)
    (hchild : ((childL, childI) : NKey) ∉ nodeKeys st)
    (hclosed : edgesClosed st) :
    applyOp st (.mergeChildEdge parent (childL, childI) p t) =
      { nodes := st.nodes ++ [{ label := childL, id := childI, props := p }],
        edges := st.edges ++ [{ typ := t, src := parent, tgt := (childL, childI) }] } := by
  have hchildB : hasNode st (childL, childI) = false := by
    rw [Bool.eq_false_iff]
    intro hh
    exact hchild ((hasNode_iff_mem st (childL, childI)).mp hh)
  have hedge : ({ typ := t, src := parent, tgt := (childL, childI) } : GEdge) ∉ st.edges := by
    intro he
    have h2 := (hclosed _ he).2
    rw [Bool.eq_false_iff] at hchildB
    exact hchildB h2
  show (if hasNode st parent = true then _ else st) = _
  rw [if_pos hpar, upsertNode_fresh st (childL, childI) p hchildB,
    upsertEdge_fresh _ t parent (childL, childI) (by simpa using hedge)]

/-- Closure is preserved when a store grows by nodes and edges whose
endpoints exist in the grown store. -/
theorem edgesClosed_extend (st : GStore) (nds : List GNode) (eds : List GEdge)
    (hclosed : edgesClosed st)
    (hnew : ∀ e ∈ eds,
      hasNode { nodes := st.nodes ++ nds, edges := st.edges ++ eds } e.src = true ∧
      hasNode { nodes := st.nodes ++ nds, edges := st.edges ++ eds } e.tgt = true) :
    edgesClosed { nodes := st.nodes ++ nds, edges := st.edges ++ eds } := by
  intro e he
  rcases List.mem_append.mp he with hold | hnew2
  · obtain ⟨h1, h2⟩ := hclosed e hold
    exact ⟨hasNode_mk_append_left st.nodes nds st.edges _ e.src h1,
      hasNode_mk_append_left st.nodes nds st.edges _ e.tgt h2⟩
  · exact hnew e hnew2

/-- Running the concept queries of one section over fresh concept
identities appends one node and one containment edge per concept. -/
theorem runOps_conceptOps (sid : Str) (cos : List Concept) (st : GStore)
    (hsec : hasNode st (sectionLabel, sid) = true)
    (hfresh : ∀ co ∈ cos, ((conceptLabel, co.id) : NKey) ∉ nodeKeys st)
    (hnd : (cos.map (·.id)).Nodup)
    (hclosed : edgesClosed st) :
    runOps st (cos.map (conceptOp sid)) =
      { nodes := st.nodes ++ cos.map conceptNode,
        edges := st.edges ++ cos.map fun co =>
          { typ := hasConceptT, src := (sectionLabel, sid), tgt := (conceptLabel, co.id) } } := by
  induction cos generalizing st with
  | nil => simp [runOps]
  | cons co rest ih =>
      rw [List.map_cons, runOps_cons]
      rw [show conceptOp sid co =
        .mergeChildEdge (sectionLabel, sid) (conceptLabel, co.id) (conceptProps co) hasConceptT
        from rfl]
      rw [applyOp_childEdge_fresh st _ conceptLabel co.id _ _ hsec
        (hfresh co (List.mem_cons_self co rest)) hclosed]
      rw [show ({ label := conceptLabel, id := co.id, props := conceptProps co } : GNode) =
        conceptNode co from rfl]
      set st1 : GStore :=
        { nodes := st.nodes ++ [conceptNode co],
          edges := st.edges ++
            [{ typ := hasConceptT, src := (sectionLabel, sid), tgt := (conceptLabel, co.id) }] }
        with hst1
      have hsec1 : hasNode st1 (sectionLabel, sid) = true :=
        hasNode_mk_append_left st.nodes [conceptNode co] st.edges _ _ hsec
      have hkeys1 : nodeKeys st1 = nodeKeys st ++ [(conceptLabel, co.id)] := by
        rw [hst1]
        rw [nodeKeys_mk_append st.nodes [conceptNode co]]
        rfl
      have hfresh1 : ∀ co2 ∈ rest, ((conceptLabel, co2.id) : NKey) ∉ nodeKeys st1 := by
        intro co2 hco2
        rw [hkeys1]
        intro hmem
        rcases List.mem_append.mp hmem with hh | hh
        · exact hfresh co2 (List.mem_cons_of_mem co hco2) hh
        · have : co2.id = co.id := by
            have := List.mem_singleton.mp hh
            exact congrArg Prod.snd this
          have hcoid : co.id ∈ rest.map (·.id) := this ▸ List.mem_map_of_mem _ hco2
          exact (List.nodup_cons.mp hnd).1 hcoid
      have hclosed1 : edgesClosed st1 := by
        refine edgesClosed_extend st [conceptNode co] _ hclosed ?_
        intro e he
        rw [List.mem_singleton.mp he]
        refine ⟨hsec1, ?_⟩
        rw [hasNode_iff_mem, hkeys1]
        exact List.mem_append_right _ (List.mem_singleton.mpr rfl)
      rw [ih st1 hsec1 hfresh1 (List.nodup_cons.mp hnd).2 hclosed1, hst1]
      simp

/-- Distinct labelled keys have distinct identities. -/
theorem nodup_ids_of_pair_keys {α : Type} (L : Str) (f : α → Str) (xs : List α)
    (h : (xs.map fun x => ((L, f x) : NKey)).Nodup) : (xs.map f).Nodup := by
  induction xs with
  | nil => exact List.nodup_nil
  | cons x rest ih =>
      rw [List.map_cons, List.nodup_cons] at h ⊢
      refine ⟨?_, ih h.2⟩
      intro hmem
      obtain ⟨y, hy, hfy⟩ := List.mem_map.mp hmem
      exact h.1 (List.mem_map.mpr ⟨y, hy, by rw [hfy]⟩)

/-- The section key heads the keys of a section subtree. -/
theorem sectionKey_mem (s : Section) :
    ((sectionLabel, s.id) : NKey) ∈ (sectionNodes s).map GNode.key := by
  simp [sectionNodes, GNode.key]

/-- Concept keys are among the keys of their section subtree. -/
theorem conceptKey_mem_section (s : Section) (co : Concept) (h : co ∈ s.concepts) :
    ((conceptLabel, co.id) : NKey) ∈ (sectionNodes s).map GNode.key := by
  simp only [sectionNodes, List.map_cons, List.mem_cons, List.map_map]
  right
  exact List.mem_map.mpr ⟨co, h, rfl⟩

/-- Shape of the structural edges of a section subtree. -/
theorem sectionEdges_cases (chId : Str) (s : Section) (e : GEdge)
    (h : e ∈ sectionEdges chId s) :
    (e = { typ := hasSectionT, src := (chapterLabel, chId), tgt := (sectionLabel, s.id) }) ∨
    (∃ co ∈ s.concepts,
      e = { typ := hasConceptT, src := (sectionLabel, s.id), tgt := (conceptLabel, co.id) }) := by
  rcases List.mem_cons.mp h with h1 | h2
  · exact Or.inl h1
  · obtain ⟨co, hco, he⟩ := List.mem_map.mp h2
    exact Or.inr ⟨co, hco, he.symm⟩

/-- Running the queries of one section over fresh identities appends the
section subtree nodes and edges. -/
theorem runOps_sectionOps (chId : Str) (s : Section) (st : GStore)
    (hch : hasNode st (chapterLabel, chId) = true)
    (hfresh : ∀ k ∈ (sectionNodes s).map GNode.key, k ∉ nodeKeys st)
    (hnd : ((sectionNodes s).map GNode.key).Nodup)
    (hclosed : edgesClosed st) :
    runOps st (sectionOps chId s) =
      { nodes := st.nodes ++ sectionNodes s, edges := st.edges ++ sectionEdges chId s } := by
  rw [show sectionOps chId s =
    .mergeChildEdge (chapterLabel, chId) (sectionLabel, s.id) (sectionProps s) hasSectionT ::
      s.concepts.map (conceptOp s.id) from rfl]
  rw [runOps_cons]
  have hsecfresh : ((sectionLabel, s.id) : NKey) ∉ nodeKeys st :=
    hfresh _ (sectionKey_mem s)
  rw [applyOp_childEdge_fresh st _ sectionLabel s.id _ _ hch hsecfresh hclosed]
  set st1 : GStore :=
    { nodes := st.nodes ++ [{ label := sectionLabel, id := s.id, props := sectionProps s }],
      edges := st.edges ++
        [{ typ := hasSectionT, src := (chapterLabel, chId), tgt := (sectionLabel, s.id) }] }
    with hst1
  have hkeys1 : nodeKeys st1 = nodeKeys st ++ [(sectionLabel, s.id)] := by
    rw [hst1, nodeKeys_mk_append]
    rfl
  have hsec1 : hasNode st1 (sectionLabel, s.id) = true := by
    rw [hasNode_iff_mem, hkeys1]
    exact List.mem_append_right _ (List.mem_singleton.mpr rfl)
  have hfresh1 : ∀ co ∈ s.concepts, ((conceptLabel, co.id) : NKey) ∉ nodeKeys st1 := by
    intro co hco
    rw [hkeys1]
    intro hmem
    rcases List.mem_append.mp hmem with hh | hh
    · exact hfresh _ (conceptKey_mem_section s co hco) hh
    · have : conceptLabel = sectionLabel := congrArg Prod.fst (List.mem_singleton.mp hh)
      exact absurd this (by decide)
  have hndco : (s.concepts.map (·.id)).Nodup := by
    have htail := (List.nodup_cons.mp (by
      simpa only [sectionNodes, List.map_cons] using hnd)).2
    rw [List.map_map] at htail
    rw [show (GNode.key ∘ conceptNode) = (fun co => ((conceptLabel, co.id) : NKey)) from rfl]
      at htail
    exact nodup_ids_of_pair_keys conceptLabel (·.id) s.concepts htail
  have hclosed1 : edgesClosed st1 := by
    refine edgesClosed_extend st _ _ hclosed ?_
    intro e he
    rw [List.mem_singleton.mp he]
    exact ⟨hasNode_mk_append_left st.nodes _ st.edges _ _ hch, hsec1⟩
  rw [runOps_conceptOps s.id s.concepts st1 hsec1 hfresh1 hndco hclosed1, hst1]
  simp [sectionNodes, sectionEdges]

/-- Running the queries of a list of sections over fresh identities
appends every section subtree. -/
theorem runOps_sectionOpsList (chId : Str) (secs : List Section) (st : GStore)
    (hch : hasNode st (chapterLabel, chId) = true)
    (hfresh : ∀ k ∈ (secs.flatMap sectionNodes).map GNode.key, k ∉ nodeKeys st)
    (hnd : ((secs.flatMap sectionNodes).map GNode.key).Nodup)
    (hclosed : edgesClosed st) :
    runOps st (secs.flatMap (sectionOps chId)) =
      { nodes := st.nodes ++ secs.flatMap sectionNodes,
        edges := st.edges ++ secs.flatMap (sectionEdges chId) } := by
  induction secs generalizing st with
  | nil => simp [runOps]
  | cons s rest ih =>
      have hmap : ((s :: rest).flatMap sectionNodes).map GNode.key =
          (sectionNodes s).map GNode.key ++ (rest.flatMap sectionNodes).map GNode.key := by
        rw [List.flatMap_cons, List.map_append]
      rw [hmap] at hfresh hnd
      obtain ⟨hndA, hndB, hdisj⟩ := List.nodup_append.mp hnd
      rw [List.flatMap_cons, runOps_append,
        runOps_sectionOps chId s st hch (fun k hk => hfresh k (List.mem_append_left _ hk))
          hndA hclosed]
      set st1 : GStore :=
        { nodes := st.nodes ++ sectionNodes s, edges := st.edges ++ sectionEdges chId s }
        with hst1
      have hkeys1 : nodeKeys st1 = nodeKeys st ++ (sectionNodes s).map GNode.key := by
        rw [hst1, nodeKeys_mk_append]
        rfl
      have hch1 : hasNode st1 (chapterLabel, chId) = true :=
        hasNode_mk_append_left st.nodes _ st.edges _ _ hch
      have hsKey1 : hasNode st1 (sectionLabel, s.id) = true := by
        rw [hasNode_iff_mem, hkeys1]
        exact List.mem_append_right _ (sectionKey_mem s)
      have hclosed1 : edgesClosed st1 := by
        refine edgesClosed_extend st _ _ hclosed ?_
        intro e he
        rcases sectionEdges_cases chId s e he with h1 | ⟨co, hco, h2⟩
        · rw [h1]
          exact ⟨hch1, hsKey1⟩
        · rw [h2]
          refine ⟨hsKey1, ?_⟩
          rw [hasNode_iff_mem, hkeys1]
          exact List.mem_append_right _ (conceptKey_mem_section s co hco)
      have hfresh1 : ∀ k ∈ (rest.flatMap sectionNodes).map GNode.key, k ∉ nodeKeys st1 := by
        intro k hk
        rw [hkeys1]
        intro hmem
        rcases List.mem_append.mp hmem with hh | hh
        · exact hfresh k (List.mem_append_right _ hk) hh
        · exact hdisj hh hk
      rw [ih st1 hch1 hfresh1 hndB hclosed1, hst1]
      simp [List.flatMap_cons]

/-- The chapter key heads the keys of a chapter subtree. -/
theorem chapterKey_mem (ch : Chapter) :
    ((chapterLabel, ch.id) : NKey) ∈ (chapterNodes ch).map GNode.key := by
  simp [chapterNodes, GNode.key]

/-- Section subtree keys are among the keys of their chapter subtree. -/
theorem sectionKeys_sub_chapter (ch : Chapter) (k : NKey)
    (h : k ∈ (ch.sections.flatMap sectionNodes).map GNode.key) :
    k ∈ (chapterNodes ch).map GNode.key := by
  simp only [chapterNodes, List.map_cons, List.mem_cons]
  right
  exact h

/-- Shape of the structural edges of a chapter subtree. -/
theorem chapterEdges_cases (bid : Str) (ch : Chapter) (e : GEdge)
    (h : e ∈ chapterEdges bid ch) :
    (e = { typ := hasChapterT, src := (bookLabel, bid), tgt := (chapterLabel, ch.id) }) ∨
    (∃ s ∈ ch.sections, e ∈ sectionEdges ch.id s) := by
  rcases List.mem_cons.mp h with h1 | h2
  · exact Or.inl h1
  · obtain ⟨s, hs, he⟩ := List.mem_flatMap.mp h2
    exact Or.inr ⟨s, hs, he⟩

/-- Running the queries of one chapter over fresh identities appends the
chapter subtree. -/
theorem runOps_chapterOps (bid : Str) (ch : Chapter) (st : GStore)
    (hbook : hasNode st (bookLabel, bid) = true)
    (hfresh : ∀ k ∈ (chapterNodes ch).map GNode.key, k ∉ nodeKeys st)
    (hnd : ((chapterNodes ch).map GNode.key).Nodup)
    (hclosed : edgesClosed st) :
    runOps st (chapterOps bid ch) =
      { nodes := st.nodes ++ chapterNodes ch, edges := st.edges ++ chapterEdges bid ch } := by
  rw [show chapterOps bid ch =
    .mergeChildEdge (bookLabel, bid) (chapterLabel, ch.id) (chapterProps ch) hasChapterT ::
      ch.sections.flatMap (sectionOps ch.id) from rfl]
  rw [runOps_cons]
  have hchfresh : ((chapterLabel, ch.id) : NKey) ∉ nodeKeys st :=
    hfresh _ (chapterKey_mem ch)
  rw [applyOp_childEdge_fresh st _ chapterLabel ch.id _ _ hbook hchfresh hclosed]
  set st1 : GStore :=
    { nodes := st.nodes ++ [{ label := chapterLabel, id := ch.id, props := chapterProps ch }],
      edges := st.edges ++
        [{ typ := hasChapterT, src := (bookLabel, bid), tgt := (chapterLabel, ch.id) }] }
    with hst1
  have hkeys1 : nodeKeys st1 = nodeKeys st ++ [(chapterLabel, ch.id)] := by
    rw [hst1, nodeKeys_mk_append]
    rfl
  have hch1 : hasNode st1 (chapterLabel, ch.id) = true := by
    rw [hasNode_iff_mem, hkeys1]
    exact List.mem_append_right _ (List.mem_singleton.mpr rfl)
  have hndtail : (((chapterNodes ch).map GNode.key).tail).Nodup ∧
      ((chapterLabel, ch.id) : NKey) ∉ ((ch.sections.flatMap sectionNodes).map GNode.key) := by
    have hh := hnd
    simp only [chapterNodes, List.map_cons, List.nodup_cons] at hh
    exact ⟨by simpa [chapterNodes] using hh.2, hh.1⟩
  have hfresh1 : ∀ k ∈ (ch.sections.flatMap sectionNodes).map GNode.key, k ∉ nodeKeys st1 := by
    intro k hk
    rw [hkeys1]
    intro hmem
    rcases List.mem_append.mp hmem with hh | hh
    · exact hfresh k (sectionKeys_sub_chapter ch k hk) hh
    · rw [List.mem_singleton.mp hh] at hk
      exact hndtail.2 hk
  have hndsecs : ((ch.sections.flatMap sectionNodes).map GNode.key).Nodup := by
    simpa [chapterNodes] using hndtail.1
  have hclosed1 : edgesClosed st1 := by
    refine edgesClosed_extend st _ _ hclosed ?_
    intro e he
    rw [List.mem_singleton.mp he]
    exact ⟨hasNode_mk_append_left st.nodes _ st.edges _ _ hbook, hch1⟩
  rw [runOps_sectionOpsList ch.id ch.sections st1 hch1 hfresh1 hndsecs hclosed1, hst1]
  simp [chapterNodes, chapterEdges]

/-- Subtree keys are keys of the flattened forest. -/
theorem keys_mem_flatMap {α : Type} (f : α → List GNode) (xs : List α) (x : α)
    (hx : x ∈ xs) (k : NKey) (hk : k ∈ (f x).map GNode.key) :
    k ∈ (xs.flatMap f).map GNode.key := by
  obtain ⟨nd, hnd, hkey⟩ := List.mem_map.mp hk
  exact List.mem_map.mpr ⟨nd, List.mem_flatMap.mpr ⟨x, hx, hnd⟩, hkey⟩

/-- Running the queries of a list of chapters over fresh identities
appends every chapter subtree. -/
theorem runOps_chapterOpsList (bid : Str) (chs : List Chapter) (st : GStore)
    (hbook : hasNode st (bookLabel, bid) = true)
    (hfresh : ∀ k ∈ (chs.flatMap chapterNodes).map GNode.key, k ∉ nodeKeys st)
    (hnd : ((chs.flatMap chapterNodes).map GNode.key).Nodup)
    (hclosed : edgesClosed st) :
    runOps st (chs.flatMap (chapterOps bid)) =
      { nodes := st.nodes ++ chs.flatMap chapterNodes,
        edges := st.edges ++ chs.flatMap (chapterEdges bid) } := by
  induction chs generalizing st with
  | nil => simp [runOps]
  | cons ch rest ih =>
      have hmap : ((ch :: rest).flatMap chapterNodes).map GNode.key =
          (chapterNodes ch).map GNode.key ++ (rest.flatMap chapterNodes).map GNode.key := by
        rw [List.flatMap_cons, List.map_append]
      rw [hmap] at hfresh hnd
      obtain ⟨hndA, hndB, hdisj⟩ := List.nodup_append.mp hnd
      rw [List.flatMap_cons, runOps_append,
        runOps_chapterOps bid ch st hbook (fun k hk => hfresh k (List.mem_append_left _ hk))
          hndA hclosed]
      set st1 : GStore :=
        { nodes := st.nodes ++ chapterNodes ch, edges := st.edges ++ chapterEdges bid ch }
        with hst1
      have hkeys1 : nodeKeys st1 = nodeKeys st ++ (chapterNodes ch).map GNode.key := by
        rw [hst1, nodeKeys_mk_append]
        rfl
      have hbook1 : hasNode st1 (bookLabel, bid) = true :=
        hasNode_mk_append_left st.nodes _ st.edges _ _ hbook
      have hsub : ∀ k ∈ (chapterNodes ch).map GNode.key, hasNode st1 k = true := by
        intro k hk
        rw [hasNode_iff_mem, hkeys1]
        exact List.mem_append_right _ hk
      have hclosed1 : edgesClosed st1 := by
        refine edgesClosed_extend st _ _ hclosed ?_
        intro e he
        rcases chapterEdges_cases bid ch e he with h1 | ⟨s, hs, h2⟩
        · rw [h1]
          exact ⟨hbook1, hsub _ (chapterKey_mem ch)⟩
        · rcases sectionEdges_cases ch.id s e h2 with h3 | ⟨co, hco, h4⟩
          · rw [h3]
            exact ⟨hsub _ (chapterKey_mem ch),
              hsub _ (sectionKeys_sub_chapter ch _
                (keys_mem_flatMap sectionNodes ch.sections s hs _ (sectionKey_mem s)))⟩
          · rw [h4]
            exact ⟨hsub _ (sectionKeys_sub_chapter ch _
                (keys_mem_flatMap sectionNodes ch.sections s hs _ (sectionKey_mem s))),
              hsub _ (sectionKeys_sub_chapter ch _
                (keys_mem_flatMap sectionNodes ch.sections s hs _
                  (conceptKey_mem_section s co hco)))⟩
      have hfresh1 : ∀ k ∈ (rest.flatMap chapterNodes).map GNode.key, k ∉ nodeKeys st1 := by
        intro k hk
        rw [hkeys1]
        intro hmem
        rcases List.mem_append.mp hmem with hh | hh
        · exact hfresh k (List.mem_append_right _ hk) hh
        · exact hdisj hh hk
      rw [ih st1 hbook1 hfresh1 hndB hclosed1, hst1]
      simp [List.flatMap_cons]

/-- Components of an adjacent pair are members of the list. -/
theorem mem_adjacentPairs (ids : List Str) (p : Str × Str) (h : p ∈ adjacentPairs ids) :
    p.1 ∈ ids ∧ p.2 ∈ ids := by
  obtain ⟨a, c⟩ := p
  unfold adjacentPairs at h
  obtain ⟨h1, h2⟩ := List.of_mem_zip h
  exact ⟨h1, List.mem_of_mem_tail h2⟩

/-- Adjacent pairs of a duplicate-free list are duplicate-free. -/
theorem adjacentPairs_nodup (ids : List Str) (h : ids.Nodup) :
    (adjacentPairs ids).Nodup := by
  induction ids with
  | nil => exact List.nodup_nil
  | cons x rest ih =>
      cases rest with
      | nil => exact List.nodup_nil
      | cons y r2 =>
          rw [show adjacentPairs (x :: y :: r2) = (x, y) :: adjacentPairs (y :: r2) from rfl,
            List.nodup_cons]
          refine ⟨?_, ih (List.nodup_cons.mp h).2⟩
          intro hmem
          exact (List.nodup_cons.mp h).1 (mem_adjacentPairs _ _ hmem).1

/-- Running the prerequisite queries over distinct pairs of existing
concept nodes appends one edge per pair and touches no node. -/
theorem runOps_prereqPairs (ps : List (Str × Str)) (st : GStore)
    (hmem : ∀ p ∈ ps, hasNode st (conceptLabel, p.1) = true ∧
      hasNode st (conceptLabel, p.2) = true)
    (hnew : ∀ p ∈ ps,
      ({ typ := prerequisiteT, src := (conceptLabel, p.1),
         tgt := (conceptLabel, p.2) } : GEdge) ∉ st.edges)
    (hnd : ps.Nodup) :
    runOps st (ps.map fun p =>
        .mergeEdgeMM (conceptLabel, p.1) (conceptLabel, p.2) prerequisiteT) =
      { nodes := st.nodes,
        edges := st.edges ++ ps.map fun p =>
          { typ := prerequisiteT, src := (conceptLabel, p.1),
            tgt := (conceptLabel, p.2) } } := by
  induction ps generalizing st with
  | nil => simp [runOps]
  | cons p rest ih =>
      rw [List.map_cons, runOps_cons]
      have hcond : (hasNode st (conceptLabel, p.1) && hasNode st (conceptLabel, p.2)) = true := by
        rw [(hmem p (List.mem_cons_self p rest)).1, (hmem p (List.mem_cons_self p rest)).2]
        rfl
      have happ : applyOp st
          (.mergeEdgeMM (conceptLabel, p.1) (conceptLabel, p.2) prerequisiteT) =
          { nodes := st.nodes, edges := st.edges ++
            [{ typ := prerequisiteT, src := (conceptLabel, p.1),
               tgt := (conceptLabel, p.2) }] } := by
        show (if (hasNode st (conceptLabel, p.1) && hasNode st (conceptLabel, p.2)) = true
          then upsertEdge st prerequisiteT (conceptLabel, p.1) (conceptLabel, p.2) else st) = _
        rw [if_pos hcond, upsertEdge_fresh st _ _ _ (hnew p (List.mem_cons_self p rest))]
      rw [happ]
      set st1 : GStore := { nodes := st.nodes, edges := st.edges ++
        [{ typ := prerequisiteT, src := (conceptLabel, p.1),
           tgt := (conceptLabel, p.2) }] } with hst1
      have hmem1 : ∀ p2 ∈ rest, hasNode st1 (conceptLabel, p2.1) = true ∧
          hasNode st1 (conceptLabel, p2.2) = true := by
        intro p2 hp2
        exact hmem p2 (List.mem_cons_of_mem p hp2)
      have hnew1 : ∀ p2 ∈ rest,
          ({ typ := prerequisiteT, src := (conceptLabel, p2.1),
             tgt := (conceptLabel, p2.2) } : GEdge) ∉ st1.edges := by
        intro p2 hp2
        rw [hst1]
        intro hmem2
        rcases List.mem_append.mp hmem2 with hh | hh
        · exact hnew p2 (List.mem_cons_of_mem p hp2) hh
        · have he := List.mem_singleton.mp hh
          have h1 : ((conceptLabel, p2.1) : NKey) = (conceptLabel, p.1) := congrArg GEdge.src he
          have h2 : ((conceptLabel, p2.2) : NKey) = (conceptLabel, p.2) := congrArg GEdge.tgt he
          have hp : p2 = p := by
            have e1 := congrArg Prod.snd h1
            have e2 := congrArg Prod.snd h2
            exact Prod.ext_iff.mpr ⟨e1, e2⟩
          exact (List.nodup_cons.mp hnd).1 (hp ▸ hp2)
      rw [ih st1 hmem1 hnew1 (List.nodup_cons.mp hnd).2, hst1]
      simp

/-- Concept keys of the book are keys of the materialized nodes. -/
theorem conceptKey_mem_struct (b : Book) (id : Str) (h : id ∈ flatConceptIds b) :
    ((conceptLabel, id) : NKey) ∈ (structNodes b).map GNode.key := by
  unfold flatConceptIds flatConcepts at h
  obtain ⟨co, hco, hid⟩ := List.mem_map.mp h
  obtain ⟨ch, hch, hco2⟩ := List.mem_flatMap.mp hco
  obtain ⟨s, hs, hco3⟩ := List.mem_flatMap.mp hco2
  simp only [structNodes, List.map_cons, List.mem_cons]
  right
  rw [← hid]
  exact keys_mem_flatMap chapterNodes b.chapters ch hch _
    (sectionKeys_sub_chapter ch _
      (keys_mem_flatMap sectionNodes ch.sections s hs _ (conceptKey_mem_section s co hco3)))

/-- Structural edges carry no prerequisite type. -/
theorem structEdges_typ (b : Book) (e : GEdge) (h : e ∈ structEdges b) :
    e.typ ≠ prerequisiteT := by
  obtain ⟨ch, hch, he⟩ := List.mem_flatMap.mp h
  rcases chapterEdges_cases b.id ch e he with h1 | ⟨s, hs, h2⟩
  · rw [h1]
    show hasChapterT ≠ prerequisiteT
    decide
  · rcases sectionEdges_cases ch.id s e h2 with h3 | ⟨co, hco, h4⟩
    · rw [h3]
      show hasSectionT ≠ prerequisiteT
      decide
    · rw [h4]
      show hasConceptT ≠ prerequisiteT
      decide

/-- Normal form of a fresh materialization: starting from the empty
store, `create_book_graph` produces exactly the structural nodes, the
structural edges and the prerequisite chain of the book. -/
theorem createBookGraph_empty (b : Book) (hwf : WfIds b) :
    createBookGraph emptyStore b =
      { nodes := structNodes b, edges := structEdges b ++ prereqEdgesOf b } := by
  obtain ⟨hknd, hcnd⟩ := hwf
  unfold createBookGraph bookOps
  rw [runOps_cons]
  rw [show applyOp emptyStore (.mergeNode (bookLabel, b.id) (bookProps b)) =
    { nodes := [{ label := bookLabel, id := b.id, props := bookProps b }], edges := [] }
    from rfl]
  rw [runOps_append]
  set st0 : GStore :=
    { nodes := [{ label := bookLabel, id := b.id, props := bookProps b }], edges := [] }
    with hst0
  have hkeys0 : nodeKeys st0 = [(bookLabel, b.id)] := rfl
  have hbook0 : hasNode st0 (bookLabel, b.id) = true := by
    rw [hasNode_iff_mem, hkeys0]
    exact List.mem_singleton.mpr rfl
  have hkndSplit : ((bookLabel, b.id) : NKey) ∉
      ((b.chapters.flatMap chapterNodes).map GNode.key) ∧
      ((b.chapters.flatMap chapterNodes).map GNode.key).Nodup := by
    have hh := hknd
    simp only [structNodes, List.map_cons, List.nodup_cons] at hh
    exact ⟨hh.1, hh.2⟩
  have hfreshF : ∀ k ∈ (b.chapters.flatMap chapterNodes).map GNode.key,
      k ∉ nodeKeys st0 := by
    intro k hk hmem
    rw [hkeys0] at hmem
    rw [List.mem_singleton.mp hmem] at hk
    exact hkndSplit.1 hk
  have hclosed0 : edgesClosed st0 := by
    intro e he
    exact absurd he (List.not_mem_nil e)
  rw [runOps_chapterOpsList b.id b.chapters st0 hbook0 hfreshF hkndSplit.2 hclosed0]
  set st1 : GStore :=
    { nodes := st0.nodes ++ b.chapters.flatMap chapterNodes,
      edges := st0.edges ++ b.chapters.flatMap (chapterEdges b.id) }
    with hst1
  have hnodes1 : st1.nodes = structNodes b := by
    rw [hst1, hst0]
    rfl
  have hedges1 : st1.edges = structEdges b := by
    rw [hst1, hst0]
    rfl
  have hmemP : ∀ p ∈ adjacentPairs (flatConceptIds b),
      hasNode st1 (conceptLabel, p.1) = true ∧ hasNode st1 (conceptLabel, p.2) = true := by
    intro p hp
    obtain ⟨h1, h2⟩ := mem_adjacentPairs _ p hp
    constructor
    · rw [hasNode_iff_mem]
      show (conceptLabel, p.1) ∈ st1.nodes.map GNode.key
      rw [hnodes1]
      exact conceptKey_mem_struct b p.1 h1
    · rw [hasNode_iff_mem]
      show (conceptLabel, p.2) ∈ st1.nodes.map GNode.key
      rw [hnodes1]
      exact conceptKey_mem_struct b p.2 h2
  have hnewP : ∀ p ∈ adjacentPairs (flatConceptIds b),
      ({ typ := prerequisiteT, src := (conceptLabel, p.1),
         tgt := (conceptLabel, p.2) } : GEdge) ∉ st1.edges := by
    intro p hp hmem
    rw [hedges1] at hmem
    exact structEdges_typ b _ hmem rfl
  rw [show prereqOps (flatConceptIds b) =
    (adjacentPairs (flatConceptIds b)).map fun p =>
      .mergeEdgeMM (conceptLabel, p.1) (conceptLabel, p.2) prerequisiteT from rfl]
  rw [runOps_prereqPairs (adjacentPairs (flatConceptIds b)) st1 hmemP hnewP
    (adjacentPairs_nodup _ hcnd)]
  rw [hnodes1, hedges1]
  rfl

/-- C5: the Graph Builder creates exactly one directed prerequisite edge
per adjacent pair of the document order flattening of the concepts, and
no other prerequisite edge: the prerequisite pairs of a fresh
materialization are exactly the adjacent pairs. -/
theorem createBookGraph_prereq_chain (b : Book) (hwf : WfIds b) :
    prereqPairsOf (createBookGraph emptyStore b) = adjacentPairs (flatConceptIds b) := by
  rw [createBookGraph_empty b hwf]
  show (structEdges b ++ prereqEdgesOf b).filterMap _ = _
  rw [List.filterMap_append]
  have h1 : (structEdges b).filterMap
      (fun e => if e.typ = prerequisiteT then some (e.src.2, e.tgt.2) else none) = [] := by
    rw [List.filterMap_eq_nil_iff]
    intro e he
    rw [if_neg (structEdges_typ b e he)]
  have h2 : (prereqEdgesOf b).filterMap
      (fun e => if e.typ = prerequisiteT then some (e.src.2, e.tgt.2) else none) =
      adjacentPairs (flatConceptIds b) := by
    unfold prereqEdgesOf
    rw [List.filterMap_map]
    rw [show ((fun e => if e.typ = prerequisiteT then some (e.src.2, e.tgt.2) else none) ∘
      (fun p => ({ typ := prerequisiteT, src := (conceptLabel, p.1),
                   tgt := (conceptLabel, p.2) } : GEdge))) = some from by
      funext p
      simp]
    exact List.filterMap_some _
  rw [h1, h2, List.nil_append]

/-- C5 witness: the three concept book yields exactly the two adjacent
prerequisite pairs, and no direct edge from the first to the third
concept. -/
theorem createBookGraph_prereq_chain_witness :
    WfIds exGraphBook ∧
    prereqPairsOf (createBookGraph emptyStore exGraphBook) =
      [("c1".data, "c2".data), ("c2".data, "c3".data)] ∧
    ("c1".data, "c3".data) ∉ prereqPairsOf (createBookGraph emptyStore exGraphBook) := by
  have hwf : WfIds exGraphBook := ⟨by decide, by decide⟩
  refine ⟨hwf, ?_, by decide⟩
  rw [createBookGraph_prereq_chain exGraphBook hwf]
  decide

/-- The chapter node with its written properties is a materialized
node. -/
theorem chapterNode_mem_struct (b : Book) (ch : Chapter) (hch : ch ∈ b.chapters) :
    ({ label := chapterLabel, id := ch.id, props := chapterProps ch } : GNode) ∈
      structNodes b := by
  simp only [structNodes, List.mem_cons]
  right
  exact List.mem_flatMap.mpr ⟨ch, hch, List.mem_cons_self _ _⟩

/-- The section node with its written properties is a materialized
node. -/
theorem sectionNode_mem_struct (b : Book) (ch : Chapter) (s : Section)
    (hch : ch ∈ b.chapters) (hs : s ∈ ch.sections) :
    ({ label := sectionLabel, id := s.id, props := sectionProps s } : GNode) ∈
      structNodes b := by
  simp only [structNodes, List.mem_cons]
  right
  refine List.mem_flatMap.mpr ⟨ch, hch, ?_⟩
  simp only [chapterNodes, List.mem_cons]
  right
  exact List.mem_flatMap.mpr ⟨s, hs, List.mem_cons_self _ _⟩

/-- The concept node with its written properties is a materialized
node. -/
theorem conceptNode_mem_struct (b : Book) (ch : Chapter) (s : Section) (co : Concept)
    (hch : ch ∈ b.chapters) (hs : s ∈ ch.sections) (hco : co ∈ s.concepts) :
    conceptNode co ∈ structNodes b := by
  simp only [structNodes, List.mem_cons]
  right
  refine List.mem_flatMap.mpr ⟨ch, hch, ?_⟩
  simp only [chapterNodes, List.mem_cons]
  right
  refine List.mem_flatMap.mpr ⟨s, hs, ?_⟩
  simp only [sectionNodes, List.mem_cons]
  right
  exact List.mem_map_of_mem conceptNode hco

/-- The chapter containment edge is materialized. -/
theorem chapterEdge_mem_struct (b : Book) (ch : Chapter) (hch : ch ∈ b.chapters) :
    ({ typ := hasChapterT, src := (bookLabel, b.id),
       tgt := (chapterLabel, ch.id) } : GEdge) ∈ structEdges b :=
  List.mem_flatMap.mpr ⟨ch, hch, List.mem_cons_self _ _⟩

/-- The section containment edge is materialized. -/
theorem sectionEdge_mem_struct (b : Book) (ch : Chapter) (s : Section)
    (hch : ch ∈ b.chapters) (hs : s ∈ ch.sections) :
    ({ typ := hasSectionT, src := (chapterLabel, ch.id),
       tgt := (sectionLabel, s.id) } : GEdge) ∈ structEdges b := by
  refine List.mem_flatMap.mpr ⟨ch, hch, ?_⟩
  simp only [chapterEdges, List.mem_cons]
  right
  exact List.mem_flatMap.mpr ⟨s, hs, List.mem_cons_self _ _⟩

/-- The concept containment edge is materialized. -/
theorem conceptEdge_mem_struct (b : Book) (ch : Chapter) (s : Section) (co : Concept)
    (hch : ch ∈ b.chapters) (hs : s ∈ ch.sections) (hco : co ∈ s.concepts) :
    ({ typ := hasConceptT, src := (sectionLabel, s.id),
       tgt := (conceptLabel, co.id) } : GEdge) ∈ structEdges b := by
  refine List.mem_flatMap.mpr ⟨ch, hch, ?_⟩
  simp only [chapterEdges, List.mem_cons]
  right
  refine List.mem_flatMap.mpr ⟨s, hs, ?_⟩
  simp only [sectionEdges, List.mem_cons]
  right
  exact List.mem_map.mpr ⟨co, hco, rfl⟩

/-- C6: the Graph Builder is idempotent: materializing the same book a
second time leaves the store unchanged, so the sets and counts of nodes
and edges equal those of a single run. -/
theorem createBookGraph_idempotent (b : Book) (hwf : WfIds b) :
    createBookGraph (createBookGraph emptyStore b) b = createBookGraph emptyStore b := by
  rw [createBookGraph_empty b hwf]
  set S : GStore := { nodes := structNodes b, edges := structEdges b ++ prereqEdgesOf b }
    with hS
  have hknd : (nodeKeys S).Nodup := hwf.1
  have hkeysS : nodeKeys S = (structNodes b).map GNode.key := rfl
  have hasOf : ∀ k : NKey, k ∈ (structNodes b).map GNode.key → hasNode S k = true := by
    intro k hk
    rw [hasNode_iff_mem, hkeysS]
    exact hk
  have hbookKey : hasNode S (bookLabel, b.id) = true := by
    refine hasOf _ ?_
    simp [structNodes, GNode.key]
  unfold createBookGraph
  apply runOps_fix
  intro op hop
  rcases List.mem_cons.mp hop with hop1 | hop2
  · rw [hop1]
    show upsertNode S (bookLabel, b.id) (bookProps b) = S
    refine upsertNode_fix S _ _ hknd ?_
    rw [hS]
    exact List.mem_cons_self _ _
  rcases List.mem_append.mp hop2 with hopC | hopP
  · obtain ⟨ch, hch, hopc⟩ := List.mem_flatMap.mp hopC
    rcases List.mem_cons.mp hopc with hop3 | hop4
    · rw [hop3]
      show (if hasNode S (bookLabel, b.id) = true then _ else S) = S
      rw [if_pos hbookKey,
        upsertNode_fix S (chapterLabel, ch.id) (chapterProps ch) hknd
          (by rw [hS]; exact chapterNode_mem_struct b ch hch)]
      refine upsertEdge_fix S _ _ _ ?_
      rw [hS]
      exact List.mem_append_left _ (chapterEdge_mem_struct b ch hch)
    · obtain ⟨s, hs, hops⟩ := List.mem_flatMap.mp hop4
      rcases List.mem_cons.mp hops with hop5 | hop6
      · rw [hop5]
        have hchKey : hasNode S (chapterLabel, ch.id) = true := by
          refine hasOf _ ?_
          exact List.mem_map.mpr
            ⟨{ label := chapterLabel, id := ch.id, props := chapterProps ch },
              chapterNode_mem_struct b ch hch, rfl⟩
        show (if hasNode S (chapterLabel, ch.id) = true then _ else S) = S
        rw [if_pos hchKey,
          upsertNode_fix S (sectionLabel, s.id) (sectionProps s) hknd
            (by rw [hS]; exact sectionNode_mem_struct b ch s hch hs)]
        refine upsertEdge_fix S _ _ _ ?_
        rw [hS]
        exact List.mem_append_left _ (sectionEdge_mem_struct b ch s hch hs)
      · obtain ⟨co, hco, hopco⟩ := List.mem_map.mp hop6
        rw [← hopco]
        have hsKey : hasNode S (sectionLabel, s.id) = true := by
          refine hasOf _ ?_
          exact List.mem_map.mpr
            ⟨{ label := sectionLabel, id := s.id, props := sectionProps s },
              sectionNode_mem_struct b ch s hch hs, rfl⟩
        show (if hasNode S (sectionLabel, s.id) = true then _ else S) = S
        rw [if_pos hsKey,
          upsertNode_fix S (conceptLabel, co.id) (conceptProps co) hknd
            (by rw [hS]; exact conceptNode_mem_struct b ch s co hch hs hco)]
        refine upsertEdge_fix S _ _ _ ?_
        rw [hS]
        exact List.mem_append_left _ (conceptEdge_mem_struct b ch s co hch hs hco)
  · obtain ⟨p, hp, hopp⟩ := List.mem_map.mp hopP
    rw [← hopp]
    obtain ⟨h1, h2⟩ := mem_adjacentPairs _ p hp
    have hk1 : hasNode S (conceptLabel, p.1) = true := hasOf _ (conceptKey_mem_struct b p.1 h1)
    have hk2 : hasNode S (conceptLabel, p.2) = true := hasOf _ (conceptKey_mem_struct b p.2 h2)
    show (if (hasNode S (conceptLabel, p.1) && hasNode S (conceptLabel, p.2)) = true
      then upsertEdge S prerequisiteT (conceptLabel, p.1) (conceptLabel, p.2) else S) = S
    rw [if_pos (by rw [hk1, hk2]; rfl)]
    refine upsertEdge_fix S _ _ _ ?_
    rw [hS]
    refine List.mem_append_right _ ?_
    exact List.mem_map.mpr ⟨p, hp, rfl⟩

/-- C6 witness: materializing the example book twice equals materializing
it once. -/
theorem createBookGraph_idempotent_witness :
    WfIds exGraphBook ∧
    createBookGraph (createBookGraph emptyStore exGraphBook) exGraphBook =
      createBookGraph emptyStore exGraphBook :=
  ⟨⟨by decide, by decide⟩,
    createBookGraph_idempotent exGraphBook ⟨by decide, by decide⟩⟩

/-! ### Shortest path lemmas -/

/-- Membership in the direct predecessors is edge existence. -/
theorem mem_predsOf (st : GStore) (x y : NKey) :
    x ∈ predsOf st y ↔ isPrereqEdge st x y = true := by
  unfold predsOf isPrereqEdge
  rw [List.mem_filterMap, decide_eq_true_eq]
  constructor
  · rintro ⟨e, he, hcond⟩
    by_cases hc : e.typ = prerequisiteT ∧ e.tgt = y
    · rw [if_pos hc] at hcond
      have hsrc := Option.some_inj.mp hcond
      have : e = { typ := prerequisiteT, src := x, tgt := y } := by
        obtain ⟨e1, e2, e3⟩ := e
        simp only at hsrc
        simp only [GEdge.mk.injEq]
        exact ⟨hc.1, hsrc, hc.2⟩
      rwa [this] at he
    · rw [if_neg hc] at hcond
      exact absurd hcond (Option.noConfusion)
  · intro he
    exact ⟨{ typ := prerequisiteT, src := x, tgt := y }, he, by simp⟩

/-- Components of a true conjunction of booleans. -/
theorem band_split {a b : Bool} (h : (a && b) = true) : a = true ∧ b = true := by
  constructor
  · exact Bool.and_elim_left h
  · exact Bool.and_elim_right h

/-- A chain remains a chain after dropping its head. -/
theorem chainOk_tail (st : GStore) (x : NKey) (t : List NKey)
    (h : chainOk st (x :: t) = true) : chainOk st t = true := by
  cases t with
  | nil => rfl
  | cons y r => exact (band_split h).2

/-- A chain remains a chain after dropping a prefix before a pivot. -/
theorem chainOk_append_right (st : GStore) (u : List NKey) (x : NKey) (w : List NKey)
    (h : chainOk st (u ++ x :: w) = true) : chainOk st (x :: w) = true := by
  induction u with
  | nil => exact h
  | cons c u2 ih => exact ih (chainOk_tail st c _ h)

/-- A chain remains a chain after truncating behind a pivot. -/
theorem chainOk_append_left (st : GStore) (u : List NKey) (x : NKey) (w : List NKey)
    (h : chainOk st (u ++ x :: w) = true) : chainOk st (u ++ [x]) = true := by
  induction u with
  | nil => rfl
  | cons c u2 ih =>
      cases u2 with
      | nil =>
          obtain ⟨h1, _⟩ := band_split h
          show (isPrereqEdge st c x && chainOk st [x]) = true
          rw [h1]
          rfl
      | cons d u3 =>
          obtain ⟨h1, h2⟩ := band_split h
          have := ih h2
          show (isPrereqEdge st c d && chainOk st ((d :: u3) ++ [x])) = true
          rw [h1, this]
          rfl

/-- Two chains sharing a pivot concatenate to a chain. -/
theorem chainOk_glue (st : GStore) (u : List NKey) (x : NKey) (w : List NKey)
    (h1 : chainOk st (u ++ [x]) = true) (h2 : chainOk st (x :: w) = true) :
    chainOk st (u ++ x :: w) = true := by
  induction u with
  | nil => exact h2
  | cons c u2 ih =>
      cases u2 with
      | nil =>
          obtain ⟨ha, _⟩ := band_split h1
          show (isPrereqEdge st c x && chainOk st (x :: w)) = true
          rw [ha, h2]
          rfl
      | cons d u3 =>
          obtain ⟨ha, hb⟩ := band_split h1
          have := ih hb
          show (isPrereqEdge st c d && chainOk st ((d :: u3) ++ x :: w)) = true
          rw [ha, this]
          rfl

/-- A list that is not duplicate-free splits around a repeated element. -/
theorem exists_dup_split {α : Type} {l : List α} (h : ¬l.Nodup) :
    ∃ (x : α) (u v w : List α), l = u ++ x :: (v ++ x :: w) := by
  induction l with
  | nil => exact absurd List.nodup_nil h
  | cons a t ih =>
      rw [List.nodup_cons] at h
      push_neg at h
      by_cases ha : a ∈ t
      · obtain ⟨v, w, hvw⟩ := List.append_of_mem ha
        exact ⟨a, [], v, w, by rw [hvw]; rfl⟩
      · obtain ⟨x, u, v, w, ht⟩ := ih (h ha)
        exact ⟨x, a :: u, v, w, by rw [ht]; rfl⟩

/-- The head of a list is unchanged by what follows the first pivot. -/
theorem head_append_cons {α : Type} (u : List α) (x : α) (v w : List α) :
    (u ++ x :: v).head? = (u ++ x :: w).head? := by
  cases u <;> rfl

/-- The last element of an appended list is the last of its nonempty
suffix. -/
theorem getLast_append_cons {α : Type} (u : List α) (x : α) (w : List α) :
    (u ++ x :: w).getLast? = (x :: w).getLast? := by
  induction u with
  | nil => rfl
  | cons c u2 ih =>
      cases u2 with
      | nil =>
          show (c :: x :: w).getLast? = (x :: w).getLast?
          rw [List.getLast?_cons_cons]
      | cons d u3 =>
          show (c :: d :: (u3 ++ x :: w)).getLast? = (x :: w).getLast?
          rw [List.getLast?_cons_cons]
          exact ih

/-- Soundness of the layered search: level `k` holds chains of `k` edges
ending at the target. -/
theorem pathsTo_sound (st : GStore) (b : NKey) :
    ∀ k p, p ∈ pathsTo st b k →
      p.length = k + 1 ∧ p.getLast? = some b ∧ chainOk st p = true := by
  intro k
  induction k with
  | zero =>
      intro p hp
      rw [show pathsTo st b 0 = [[b]] from rfl, List.mem_singleton] at hp
      subst hp
      exact ⟨rfl, rfl, rfl⟩
  | succ k ih =>
      intro p hp
      rw [show pathsTo st b (k + 1) = (pathsTo st b k).flatMap _ from rfl] at hp
      obtain ⟨q, hq, hpq⟩ := List.mem_flatMap.mp hp
      obtain ⟨hlen, hlast, hchain⟩ := ih q hq
      cases q with
      | nil => simp at hlen
      | cons y rest =>
          obtain ⟨x, hx, hxp⟩ := List.mem_map.mp hpq
          rw [← hxp]
          refine ⟨by simpa using hlen, ?_, ?_⟩
          · rw [List.getLast?_cons_cons]
            exact hlast
          · show (isPrereqEdge st x y && chainOk st (y :: rest)) = true
            rw [(mem_predsOf st x y).mp hx, hchain]
            rfl

/-- Completeness of the layered search: every chain of `k` edges ending
at the target is at level `k`. -/
theorem pathsTo_complete (st : GStore) (b : NKey) :
    ∀ k p, chainOk st p = true → p.getLast? = some b → p.length = k + 1 →
      p ∈ pathsTo st b k := by
  intro k
  induction k with
  | zero =>
      intro p hchain hlast hlen
      cases p with
      | nil => simp at hlen
      | cons x t =>
          cases t with
          | nil =>
              have hb : x = b := by
                have := hlast
                simp at this
                exact this
              rw [hb]
              exact List.mem_singleton.mpr rfl
          | cons y r => simp at hlen
  | succ k ih =>
      intro p hchain hlast hlen
      cases p with
      | nil => simp at hlen
      | cons x q =>
          cases q with
          | nil => simp at hlen
          | cons y rest =>
              obtain ⟨hedge, hchain2⟩ := band_split hchain
              have hlast2 : (y :: rest).getLast? = some b := by
                rwa [List.getLast?_cons_cons] at hlast
              have hlen2 : (y :: rest).length = k + 1 := by
                simpa using hlen
              have hq := ih (y :: rest) hchain2 hlast2 hlen2
              rw [show pathsTo st b (k + 1) = (pathsTo st b k).flatMap _ from rfl]
              refine List.mem_flatMap.mpr ⟨y :: rest, hq, ?_⟩
              exact List.mem_map.mpr ⟨x, (mem_predsOf st x y).mpr hedge, rfl⟩

/-- A successful level search yields a member chain headed at the
source. -/
theorem searchLevel_some (st : GStore) (a b : NKey) (k : Nat) (p : List NKey)
    (h : searchLevel st a b k = some p) :
    p ∈ pathsTo st b k ∧ p.head? = some a := by
  refine ⟨List.mem_of_find?_eq_some h, ?_⟩
  have := List.find?_some h
  simpa using this

/-- A failed level search refutes every member chain headed at the
source. -/
theorem searchLevel_none (st : GStore) (a b : NKey) (k : Nat)
    (h : searchLevel st a b k = none) :
    ∀ p ∈ pathsTo st b k, p.head? ≠ some a := by
  intro p hp
  have := List.find?_eq_none.mp h p hp
  simpa using this

/-- A successful increasing search finds the first nonempty level. -/
theorem searchFrom_some (st : GStore) (a b : NKey) :
    ∀ fuel k p, searchFrom st a b k fuel = some p →
      ∃ j, k ≤ j ∧ searchLevel st a b j = some p ∧
        ∀ m, k ≤ m → m < j → searchLevel st a b m = none := by
  intro fuel
  induction fuel with
  | zero =>
      intro k p h
      rw [show searchFrom st a b k 0 = none from rfl] at h
      exact absurd h (Option.noConfusion)
  | succ fuel ih =>
      intro k p h
      rw [show searchFrom st a b k (fuel + 1) =
        (match searchLevel st a b k with
         | some p => some p
         | none => searchFrom st a b (k + 1) fuel) from rfl] at h
      cases hl : searchLevel st a b k with
      | some q =>
          rw [hl] at h
          have h2 : some q = some p := h
          refine ⟨k, Nat.le_refl k, ?_, ?_⟩
          · rw [hl]
            exact h2
          · intro m hm1 hm2
            omega
      | none =>
          rw [hl] at h
          obtain ⟨j, hkj, hj, hnone⟩ := ih (k + 1) p h
          refine ⟨j, by omega, hj, ?_⟩
          intro m hm1 hm2
          by_cases hmk : m = k
          · rw [hmk]
            exact hl
          · exact hnone m (by omega) hm2

/-- A failed increasing search means every level in range is empty. -/
theorem searchFrom_none (st : GStore) (a b : NKey) :
    ∀ fuel k, searchFrom st a b k fuel = none →
      ∀ m, k ≤ m → m < k + fuel → searchLevel st a b m = none := by
  intro fuel
  induction fuel with
  | zero =>
      intro k _ m hm1 hm2
      omega
  | succ fuel ih =>
      intro k h m hm1 hm2
      rw [show searchFrom st a b k (fuel + 1) =
        (match searchLevel st a b k with
         | some p => some p
         | none => searchFrom st a b (k + 1) fuel) from rfl] at h
      cases hl : searchLevel st a b k with
      | some q =>
          rw [hl] at h
          exact absurd h (Option.noConfusion)
      | none =>
          rw [hl] at h
          by_cases hmk : m = k
          · rw [hmk]
            exact hl
          · exact ih (k + 1) h m (by omega) (by omega)

/-- A list whose head and last differ has at least two elements. -/
theorem path_len_two {α : Type} (p : List α) (x y : α) (hx : p.head? = some x)
    (hy : p.getLast? = some y) (hne : x ≠ y) : 2 ≤ p.length := by
  cases p with
  | nil => simp at hx
  | cons c t =>
      cases t with
      | nil =>
          simp at hx hy
          rw [hx] at hy
          exact absurd hy hne
      | cons d r => simp

/-- A duplicated prerequisite path shortens to a strictly shorter
prerequisite path with the same endpoints. -/
theorem path_shorten (st : GStore) (a b : NKey) (p : List NKey)
    (hp : isPrereqPath st a b p = true) (hnd : ¬p.Nodup) (hne : a ≠ b) :
    ∃ q, isPrereqPath st a b q = true ∧ q.length < p.length := by
  obtain ⟨h123, hchain⟩ := band_split hp
  obtain ⟨h12, hlast⟩ := band_split h123
  obtain ⟨hlen2, hhead⟩ := band_split h12
  rw [decide_eq_true_eq] at hhead hlast
  obtain ⟨x, u, v, w, hsplit⟩ := exists_dup_split hnd
  subst hsplit
  have hchainq : chainOk st (u ++ x :: w) = true := by
    have hc1 : chainOk st (u ++ [x]) = true :=
      chainOk_append_left st u x (v ++ x :: w) hchain
    have hc2 : chainOk st (x :: (v ++ x :: w)) = true :=
      chainOk_append_right st u x (v ++ x :: w) hchain
    have hc3 : chainOk st (x :: w) = true :=
      chainOk_append_right st (x :: v) x w hc2
    exact chainOk_glue st u x w hc1 hc3
  have hheadq : (u ++ x :: w).head? = some a := by
    rw [head_append_cons u x w (v ++ x :: w)]
    exact hhead
  have hlastq : (u ++ x :: w).getLast? = some b := by
    rw [getLast_append_cons u x w]
    have hl2 := hlast
    rw [getLast_append_cons u x (v ++ x :: w)] at hl2
    rw [show (x :: (v ++ x :: w)).getLast? = ((x :: v) ++ x :: w).getLast? from rfl,
      getLast_append_cons (x :: v) x w] at hl2
    exact hl2
  have hlenq : 2 ≤ (u ++ x :: w).length := path_len_two _ a b hheadq hlastq hne
  refine ⟨u ++ x :: w, ?_, ?_⟩
  · show (decide (2 ≤ (u ++ x :: w).length) && _ && _ && _) = true
    rw [hchainq, decide_eq_true hlenq, decide_eq_true hheadq, decide_eq_true hlastq]
    rfl
  · simp only [List.length_append, List.length_cons]
    omega

/-- Every prerequisite path yields a duplicate-free prerequisite path
with the same endpoints. -/
theorem exists_nodup_path (st : GStore) (a b : NKey) (hne : a ≠ b) :
    ∀ n p, p.length ≤ n → isPrereqPath st a b p = true →
      ∃ q, isPrereqPath st a b q = true ∧ q.Nodup := by
  intro n
  induction n with
  | zero =>
      intro p hl hp
      obtain ⟨h123, _⟩ := band_split hp
      obtain ⟨h12, _⟩ := band_split h123
      obtain ⟨hlen2, _⟩ := band_split h12
      rw [decide_eq_true_eq] at hlen2
      omega
  | succ n ih =>
      intro p hl hp
      by_cases hd : p.Nodup
      · exact ⟨p, hp, hd⟩
      · obtain ⟨q, hq, hql⟩ := path_shorten st a b p hp hd hne
        exact ih q (by omega) hq

/-- Consecutive pairs of a list are pairs of members. -/
theorem mem_zipTail {α : Type} (l : List α) (pr : α × α) (h : pr ∈ l.zip l.tail) :
    pr.1 ∈ l ∧ pr.2 ∈ l := by
  obtain ⟨x, y⟩ := pr
  obtain ⟨h1, h2⟩ := List.of_mem_zip h
  exact ⟨h1, List.mem_of_mem_tail h2⟩

/-- Consecutive pairs of a duplicate-free list are duplicate-free. -/
theorem zipTail_nodup {α : Type} (l : List α) (h : l.Nodup) : (l.zip l.tail).Nodup := by
  induction l with
  | nil => exact List.nodup_nil
  | cons x rest ih =>
      cases rest with
      | nil => exact List.nodup_nil
      | cons y r2 =>
          show ((x, y) :: ((y :: r2).zip r2)).Nodup
          rw [List.nodup_cons]
          refine ⟨?_, ih (List.nodup_cons.mp h).2⟩
          intro hmem
          exact (List.nodup_cons.mp h).1 (mem_zipTail _ _ hmem).1

/-- Consecutive pairs of a chain are prerequisite edges of the store. -/
theorem chain_pairs_edges (st : GStore) :
    ∀ p : List NKey, chainOk st p = true → ∀ pr ∈ p.zip p.tail,
      ({ typ := prerequisiteT, src := pr.1, tgt := pr.2 } : GEdge) ∈ st.edges := by
  intro p
  induction p with
  | nil =>
      intro _ pr hpr
      simp at hpr
  | cons x t ih =>
      intro hchain pr hpr
      cases t with
      | nil => simp at hpr
      | cons y r =>
          obtain ⟨hedge, hrest⟩ := band_split hchain
          have hpr2 : pr ∈ (x, y) :: ((y :: r).zip r) := hpr
          rcases List.mem_cons.mp hpr2 with h1 | h2
          · rw [h1]
            exact of_decide_eq_true hedge
          · exact ih hrest pr h2

/-- A duplicate-free chain has at most one node more than the store has
edges. -/
theorem nodup_chain_length_le (st : GStore) (p : List NKey) (hnd : p.Nodup)
    (hchain : chainOk st p = true) : p.length ≤ st.edges.length + 1 := by
  cases p with
  | nil => simp
  | cons x t =>
      have hlenpr : ((x :: t).zip t).length = t.length := by
        rw [List.length_zip]
        simp only [List.length_cons]
        omega
      have hndpr : ((x :: t).zip t).Nodup := zipTail_nodup (x :: t) hnd
      have hinj : Function.Injective
          (fun q : NKey × NKey =>
            ({ typ := prerequisiteT, src := q.1, tgt := q.2 } : GEdge)) := by
        intro q1 q2 he
        have e1 := congrArg GEdge.src he
        have e2 := congrArg GEdge.tgt he
        exact Prod.ext_iff.mpr ⟨e1, e2⟩
      have hmapnd : (((x :: t).zip t).map fun q =>
          ({ typ := prerequisiteT, src := q.1, tgt := q.2 } : GEdge)).Nodup :=
        hndpr.map hinj
      have hsub : ∀ e ∈ ((x :: t).zip t).map (fun q =>
          ({ typ := prerequisiteT, src := q.1, tgt := q.2 } : GEdge)), e ∈ st.edges := by
        intro e he
        obtain ⟨q, hq, hqe⟩ := List.mem_map.mp he
        rw [← hqe]
        exact chain_pairs_edges st (x :: t) hchain q hq
      have hcard : (((x :: t).zip t).map fun q =>
          ({ typ := prerequisiteT, src := q.1, tgt := q.2 } : GEdge)).length ≤
          st.edges.length := by
        have h1 := List.toFinset_card_of_nodup hmapnd
        have h2 : (((x :: t).zip t).map fun q =>
            ({ typ := prerequisiteT, src := q.1, tgt := q.2 } : GEdge)).toFinset ⊆
            st.edges.toFinset := by
          intro e he
          rw [List.mem_toFinset] at he ⊢
          exact hsub e he
        have h3 := Finset.card_le_card h2
        have h4 := List.toFinset_card_le st.edges
        omega
      rw [List.length_map, hlenpr] at hcard
      simp only [List.length_cons]
      omega

/-- C7: for distinct concept identities joined by a directed
prerequisite-only path, the learning path query returns the node
sequence of a shortest such path, with total concepts equal to the node
count and estimated time fifteen minutes per node. -/
theorem findLearningPath_shortest (st : GStore) (a b : Str) (hne : a ≠ b)
    (ha : hasNode st (conceptLabel, a) = true) (hb : hasNode st (conceptLabel, b) = true)
    (hex : ∃ p, isPrereqPath st (conceptLabel, a) (conceptLabel, b) p = true) :
    ∃ lp, findLearningPath st a b = some lp ∧
      isPrereqPath st (conceptLabel, a) (conceptLabel, b) lp.path = true ∧
      (∀ q, isPrereqPath st (conceptLabel, a) (conceptLabel, b) q = true →
        lp.path.length ≤ q.length) ∧
      lp.totalConcepts = lp.path.length ∧ lp.estimatedTime = lp.path.length * 15 := by
  have hneK : ((conceptLabel, a) : NKey) ≠ (conceptLabel, b) := by
    intro h
    exact hne (congrArg Prod.snd h)
  obtain ⟨p0, hp0⟩ := hex
  obtain ⟨q0, hq0, hq0nd⟩ :=
    exists_nodup_path st _ _ hneK p0.length p0 (Nat.le_refl _) hp0
  obtain ⟨hq123, hq0chain⟩ := band_split hq0
  obtain ⟨hq12, hq0last⟩ := band_split hq123
  obtain ⟨hq0len2, hq0head⟩ := band_split hq12
  rw [decide_eq_true_eq] at hq0len2 hq0head hq0last
  have hq0bound : q0.length ≤ st.edges.length + 1 :=
    nodup_chain_length_le st q0 hq0nd hq0chain
  have hq0mem : q0 ∈ pathsTo st (conceptLabel, b) (q0.length - 1) :=
    pathsTo_complete st _ (q0.length - 1) q0 hq0chain hq0last (by omega)
  cases hfp : findPathNodes st (conceptLabel, a) (conceptLabel, b) with
  | none =>
      exfalso
      have hall := searchFrom_none st (conceptLabel, a) (conceptLabel, b) st.edges.length 1 hfp
      have hlev := hall (q0.length - 1) (by omega) (by omega)
      exact searchLevel_none st _ _ _ hlev q0 hq0mem hq0head
  | some p =>
      obtain ⟨j, hj1, hjlev, hjnone⟩ :=
        searchFrom_some st (conceptLabel, a) (conceptLabel, b) st.edges.length 1 p hfp
      obtain ⟨hpmem, hphead⟩ := searchLevel_some st _ _ j p hjlev
      obtain ⟨hplen, hplast, hpchain⟩ := pathsTo_sound st _ j p hpmem
      have hpPath : isPrereqPath st (conceptLabel, a) (conceptLabel, b) p = true := by
        show (decide _ && _ && _ && _) = true
        rw [hpchain, decide_eq_true (show 2 ≤ p.length by omega),
          decide_eq_true hphead, decide_eq_true hplast]
        rfl
      refine ⟨{ fromConcept := a, toConcept := b, path := p,
                totalConcepts := p.length, estimatedTime := p.length * 15 },
        ?_, hpPath, ?_, rfl, rfl⟩
      · unfold findLearningPath
        rw [if_pos (by rw [ha, hb]; rfl :
          (hasNode st (conceptLabel, a) && hasNode st (conceptLabel, b)) = true)]
        rw [hfp]
      · intro q hq
        obtain ⟨hx123, hxchain⟩ := band_split hq
        obtain ⟨hx12, hxlast⟩ := band_split hx123
        obtain ⟨hxlen2, hxhead⟩ := band_split hx12
        rw [decide_eq_true_eq] at hxlen2 hxhead hxlast
        have hqmem : q ∈ pathsTo st (conceptLabel, b) (q.length - 1) :=
          pathsTo_complete st _ _ q hxchain hxlast (by omega)
        by_cases hlt : q.length - 1 < j
        · exfalso
          have hnone := hjnone (q.length - 1) (by omega) hlt
          exact searchLevel_none st _ _ _ hnone q hqmem hxhead
        · show p.length ≤ q.length
          omega

/-- C7 witness: on the materialized three concept chain, the query from
the first to the third concept returns the full chain with three
concepts and an estimated time of forty-five minutes. -/
theorem findLearningPath_shortest_witness :
    findLearningPath (createBookGraph emptyStore exGraphBook) "c1".data "c3".data =
      some { fromConcept := "c1".data, toConcept := "c3".data,
             path := [(conceptLabel, "c1".data), (conceptLabel, "c2".data),
                      (conceptLabel, "c3".data)],
             totalConcepts := 3, estimatedTime := 45 } ∧
    (∃ lp, findLearningPath (createBookGraph emptyStore exGraphBook)
        "c1".data "c3".data = some lp ∧
      isPrereqPath (createBookGraph emptyStore exGraphBook)
        (conceptLabel, "c1".data) (conceptLabel, "c3".data) lp.path = true ∧
      (∀ q, isPrereqPath (createBookGraph emptyStore exGraphBook)
          (conceptLabel, "c1".data) (conceptLabel, "c3".data) q = true →
        lp.path.length ≤ q.length) ∧
      lp.totalConcepts = lp.path.length ∧ lp.estimatedTime = lp.path.length * 15) :=
  ⟨by decide,
    findLearningPath_shortest (createBookGraph emptyStore exGraphBook)
      "c1".data "c3".data (by decide) (by decide) (by decide)
      ⟨[(conceptLabel, "c1".data), (conceptLabel, "c2".data), (conceptLabel, "c3".data)],
        by decide⟩⟩

/-! ### Vector indexer lemmas -/

/-- A guarded `filterMap` is a filter followed by a map. -/
theorem filterMap_if {α β : Type} (p : α → Bool) (f : α → β) (l : List α) :
    l.filterMap (fun x => if p x then some (f x) else none) = (l.filter p).map f := by
  induction l with
  | nil => rfl
  | cons x t ih =>
      by_cases hp : p x <;> simp [hp, ih]

/-- The vectors collected from a book are exactly the images of the
concepts with a truthy embedding, in document order. -/
theorem collectVectors_eq (b : Book) :
    collectVectors b = (truthyConcepts b).map fun co =>
      ({ id := co.id, values := co.embedding.getD [] } : VecEntry) := by
  unfold collectVectors truthyConcepts flatConcepts
  induction b.chapters with
  | nil => rfl
  | cons ch rest ih =>
      simp only [List.flatMap_cons, List.filter_append, List.map_append, ih]
      congr 1
      induction ch.sections with
      | nil => rfl
      | cons s srest ihs =>
          simp only [List.flatMap_cons, List.filter_append, List.map_append, ihs]
          congr 1
          exact filterMap_if embTruthy _ s.concepts

/-- The batch fold with an always-successful provider upserts every
batch and counts every vector. -/
theorem storeFold_allOk (batches : List (List VecEntry)) :
    ∀ (ix : PIndex) (cnt i : Nat),
      batches.foldl (storeFoldStep fun _ => true) (ix, cnt, i) =
      (batches.foldl upsertBatch ix, cnt + batches.flatten.length,
        i + batches.length * vectorBatchSize) := by
  induction batches with
  | nil =>
      intro ix cnt i
      simp
  | cons bt rest ih =>
      intro ix cnt i
      rw [List.foldl_cons]
      show rest.foldl _ (upsertBatch ix bt, cnt + bt.length, i + vectorBatchSize) = _
      rw [ih]
      refine Prod.ext_iff.mpr ⟨rfl, Prod.ext_iff.mpr ⟨?_, ?_⟩⟩
      · show cnt + bt.length + rest.flatten.length = cnt + (bt :: rest).flatten.length
        rw [List.flatten_cons, List.length_append]
        omega
      · show i + vectorBatchSize + rest.length * vectorBatchSize =
          i + (bt :: rest).length * vectorBatchSize
        rw [List.length_cons, Nat.succ_mul]
        omega

/-- Upserting entries with fresh identities appends them in order. -/
theorem foldl_upsertEntry_fresh (vs : List VecEntry) :
    ∀ ix : PIndex, (∀ v ∈ vs, ∀ e ∈ ix.entries, e.id ≠ v.id) →
      (vs.map (·.id)).Nodup →
      (vs.foldl upsertEntry ix).entries = ix.entries ++ vs := by
  induction vs with
  | nil =>
      intro ix _ _
      simp
  | cons v rest ih =>
      intro ix hfree hnd
      rw [List.foldl_cons]
      have hup : upsertEntry ix v = { entries := ix.entries ++ [v] } := by
        unfold upsertEntry
        rw [if_neg]
        intro hany
        obtain ⟨e, he, heq⟩ := List.any_eq_true.mp hany
        exact hfree v (List.mem_cons_self v rest) e he (by simpa using heq)
      rw [hup, ih { entries := ix.entries ++ [v] } ?hfree ?hnd]
      · simp
      case hfree =>
        intro v2 hv2 e he
        rcases List.mem_append.mp he with hh | hh
        · exact hfree v2 (List.mem_cons_of_mem v hv2) e hh
        · rw [List.mem_singleton.mp hh]
          intro heq
          have hv2id : v2.id ∈ rest.map (·.id) := List.mem_map_of_mem _ hv2
          rw [← heq] at hv2id
          exact (List.nodup_cons.mp hnd).1 hv2id
      case hnd =>
        exact (List.nodup_cons.mp hnd).2

/-- Batched upserts over fresh identities append every vector. -/
theorem upsertBatches_fresh (vs : List VecEntry)
    (hnd : (vs.map (·.id)).Nodup) :
    ((chunkList vectorBatchSize vs).foldl upsertBatch { entries := [] }).entries = vs := by
  have hfold : (chunkList vectorBatchSize vs).foldl upsertBatch { entries := [] } =
      ((chunkList vectorBatchSize vs).flatten).foldl upsertEntry { entries := [] } := by
    rw [List.foldl_flatten]
    rfl
  rw [hfold, chunkList_flatten vectorBatchSize (by decide) vs]
  have := foldl_upsertEntry_fresh vs { entries := [] }
    (by intro v _ e he; exact absurd he (List.not_mem_nil e)) hnd
  rw [this]
  rfl

/-- C8 counterexample: a book whose three concepts carry a populated
embedding, an absent embedding and a present-but-empty embedding stores
one vector, while the claim prescribes one vector per concept with a
non-null embedding, which counts two. -/
theorem storeBookVectors_nonNull_counterexample :
    (storeBookVectors (fun _ => true) { entries := [] } exVectorBook).2 = 1 ∧
    specNonNullEmbeddingCount exVectorBook = 2 := by
  constructor
  · have hcol : collectVectors exVectorBook =
        [{ id := "v1".data, values := [3, 4] }] := by decide
    have hchunk : chunkList vectorBatchSize (collectVectors exVectorBook) =
        [[({ id := "v1".data, values := [3, 4] } : VecEntry)]] := by
      rw [hcol, chunkList_cons,
        show List.drop (vectorBatchSize - 1) ([] : List VecEntry) = [] from by simp,
        chunkList]
      rfl
    unfold storeBookVectors
    rw [hchunk]
    decide
  · decide

/-- C8 amended: the Vector Indexer stores exactly one vector per concept
whose embedding is present and nonempty (the Python truthiness test
`if concept.embedding`), silently skipping concepts whose embedding is
absent or empty: with successful upserts and distinct identities, the
stored entries are exactly the truthy concepts in document order and the
count equals their number. -/
theorem storeBookVectors_skips_untruthy (b : Book)
    (hnd : ((truthyConcepts b).map (·.id)).Nodup) :
    (storeBookVectors (fun _ => true) { entries := [] } b).1.entries =
      (truthyConcepts b).map (fun co =>
        ({ id := co.id, values := co.embedding.getD [] } : VecEntry)) ∧
    (storeBookVectors (fun _ => true) { entries := [] } b).2 =
      (truthyConcepts b).length := by
  have hndv : ((collectVectors b).map (·.id)).Nodup := by
    rw [collectVectors_eq, List.map_map]
    rw [show ((fun e : VecEntry => e.id) ∘ fun co : Concept =>
      ({ id := co.id, values := co.embedding.getD [] } : VecEntry)) =
      (fun co : Concept => co.id) from rfl]
    exact hnd
  have hr := storeFold_allOk (chunkList vectorBatchSize (collectVectors b))
    { entries := [] } 0 0
  have hrun : storeBookVectors (fun _ => true) { entries := [] } b =
      ((chunkList vectorBatchSize (collectVectors b)).foldl upsertBatch { entries := [] },
        (chunkList vectorBatchSize (collectVectors b)).flatten.length) := by
    unfold storeBookVectors
    rw [hr]
    simp
  rw [hrun]
  constructor
  · show ((chunkList vectorBatchSize (collectVectors b)).foldl upsertBatch
      { entries := [] }).entries = _
    rw [upsertBatches_fresh (collectVectors b) hndv, collectVectors_eq]
  · show (chunkList vectorBatchSize (collectVectors b)).flatten.length = _
    rw [chunkList_flatten vectorBatchSize (by decide), collectVectors_eq, List.length_map]

/-- C8 witness: the example book has one concept with a populated
embedding; exactly its vector is stored and the count is one. -/
theorem storeBookVectors_skips_untruthy_witness :
    ((truthyConcepts exVectorBook).map (·.id)).Nodup ∧
    (storeBookVectors (fun _ => true) { entries := [] } exVectorBook).1.entries =
      (truthyConcepts exVectorBook).map (fun co =>
        ({ id := co.id, values := co.embedding.getD [] } : VecEntry)) ∧
    (storeBookVectors (fun _ => true) { entries := [] } exVectorBook).2 =
      (truthyConcepts exVectorBook).length :=
  ⟨by decide, (storeBookVectors_skips_untruthy exVectorBook (by decide)).1,
    (storeBookVectors_skips_untruthy exVectorBook (by decide)).2⟩

/-! ### Processing job pipeline -/

/-- C9 counterexample: a run whose graph write raises with an empty
message ends failed at progress 50 with the empty string recorded as the
error message; the recorded error message is therefore not non-empty. -/
theorem pipeline_empty_message_counterexample :
    (pipelineTrace exOutcomesEmptyMsg exJob).getLast? =
      some { status := .failed, progress := 50, errorMessage := some [],
             hasStartedAt := true, hasCompletedAt := true } := by decide

/-- C9 amended: a run whose graph write raises ends failed with progress
exactly 50 and the error message set to the message of the exception
(hence non-empty exactly when that message is non-empty), and the trace
never returns to `processing` after a terminal state. -/
theorem pipeline_graph_failure (oc : StageOutcomes) (j0 : Job) (m : Str)
    (he : oc.extract = .ok) (hm : oc.embed = .ok) (hg : oc.graph = .err m) :
    (pipelineTrace oc j0).getLast? =
      some { status := .failed, progress := 50, errorMessage := some m,
             hasStartedAt := true, hasCompletedAt := true } ∧
    noRevert (pipelineTrace oc j0) = true := by
  simp only [pipelineTrace, he, hm, hg]
  exact ⟨rfl, rfl⟩

/-- C9 witness: a graph write failure with a readable message. -/
theorem pipeline_graph_failure_witness :
    (pipelineTrace exOutcomesBoom exJob).getLast? =
      some { status := .failed, progress := 50, errorMessage := some "boom".data,
             hasStartedAt := true, hasCompletedAt := true } ∧
    noRevert (pipelineTrace exOutcomesBoom exJob) = true :=
  pipeline_graph_failure exOutcomesBoom exJob "boom".data rfl rfl rfl

end Spool







